import Mathlib

/-!
Verification of the MeetNGreet backend's scoring/evaluation pipeline.

This file is a shallow embedding of the Python code under
`backend/app/` (scoring_service.py, llm_service.py, question_service.py,
transcription_service.py, evaluation_service.py, routers/interview.py).
Modelling conventions:
* Python floats are modelled as exact rationals (`ℚ`); `round(x, 2)` is
  modelled as round-half-to-even on `x * 100` (`pyRound2`).
* A Python value that is read with `dict.get` and coerced with `float(...)`
  is modelled as `Option ℚ` (`none` = key missing, value `None`, or not
  coercible, exactly the cases where the code falls back to a default).
* Python strings are Lean `String`s; `str.lower()`/`str.casefold()` are
  modelled by `pyLower`, which implements the case mapping for the ASCII
  and basic Cyrillic ranges (identity elsewhere) — exact on every string
  the theorems below quantify over; `str.isalpha()` is modelled by
  `pyIsAlpha`, which implements the Unicode `Alphabetic` classification
  for the scripts this code inspects (ASCII Latin, Devanagari, Cyrillic,
  CJK) and is `false` elsewhere.
* Loops are translated to structural recursion; where the Python loop's
  progress measure is the shrinking list length, the recursion carries a
  fuel argument initialised no smaller than that measure, which is shown
  (or easily seen) never to run out.
-/

namespace MeetNGreet

/-! ## Python primitives -/

/-- Whitespace as recognised by Python's `str.split()`/`str.strip()` for the
ASCII range: space, tab, newline, carriage return, vertical tab, form feed. -/
def pyIsSpace (c : Char) : Bool :=
  c.toNat = 32 || c.toNat = 9 || c.toNat = 10 || c.toNat = 13 ||
  c.toNat = 0x0B || c.toNat = 0x0C

/-- `str.lower()` / `str.casefold()` on one character, for the ASCII and
basic Cyrillic (U+0400–U+04FF) ranges; identity on other characters. -/
def pyLower (c : Char) : Char :=
  if 65 ≤ c.toNat ∧ c.toNat ≤ 90 then Char.ofNat (c.toNat + 32)
  else if 0x410 ≤ c.toNat ∧ c.toNat ≤ 0x42F then Char.ofNat (c.toNat + 0x20)
  else if 0x400 ≤ c.toNat ∧ c.toNat ≤ 0x40F then Char.ofNat (c.toNat + 0x50)
  else c

/-- `str.lower()` on a whole string. -/
def lowerStr (s : String) : String := ⟨s.data.map pyLower⟩

/-- `str.strip()` on a character list. -/
def pyStripL (l : List Char) : List Char :=
  ((l.dropWhile pyIsSpace).reverse.dropWhile pyIsSpace).reverse

/-- `str.strip()`. -/
def pyStrip (s : String) : String := ⟨pyStripL s.data⟩

/-- Round a rational to the nearest integer, ties to even — the rounding
used by Python's builtin `round`. -/
def roundHalfEven (q : ℚ) : ℤ :=
  if q - ⌊q⌋ < 1/2 then ⌊q⌋
  else if 1/2 < q - ⌊q⌋ then ⌊q⌋ + 1
  else if ⌊q⌋ % 2 = 0 then ⌊q⌋ else ⌊q⌋ + 1

/-- Python's `round(x, 2)` (on exact rationals). -/
def pyRound2 (q : ℚ) : ℚ := (roundHalfEven (q * 100) : ℚ) / 100

theorem roundHalfEven_le {q : ℚ} {b : ℤ} (h : q ≤ (b : ℚ)) : roundHalfEven q ≤ b := by
  have hfl : ⌊q⌋ ≤ b := by
    have := Int.floor_mono h
    simpa using this
  unfold roundHalfEven
  split_ifs with h1 h2 h3
  · exact hfl
  · have : (⌊q⌋ : ℚ) < (b : ℚ) := by linarith
    have : ⌊q⌋ < b := by exact_mod_cast this
    omega
  · exact hfl
  · have hr : q - (⌊q⌋ : ℚ) = 1/2 := le_antisymm (not_lt.mp h2) (not_lt.mp h1)
    have : (⌊q⌋ : ℚ) < (b : ℚ) := by linarith
    have hlt : ⌊q⌋ < b := by exact_mod_cast this
    omega

theorem le_roundHalfEven {q : ℚ} {a : ℤ} (h : (a : ℚ) ≤ q) : a ≤ roundHalfEven q := by
  have hfl : a ≤ ⌊q⌋ := Int.le_floor.mpr h
  unfold roundHalfEven
  split_ifs with h1 h2 h3
  · exact hfl
  · omega
  · exact hfl
  · omega

theorem pyRound2_le {q : ℚ} {m : ℤ} (h : q ≤ (m : ℚ) / 100) : pyRound2 q ≤ (m : ℚ) / 100 := by
  have h100 : q * 100 ≤ (m : ℚ) := by linarith
  have := roundHalfEven_le h100
  have : (roundHalfEven (q * 100) : ℚ) ≤ (m : ℚ) := by exact_mod_cast this
  unfold pyRound2
  linarith

theorem le_pyRound2 {q : ℚ} {m : ℤ} (h : (m : ℚ) / 100 ≤ q) : (m : ℚ) / 100 ≤ pyRound2 q := by
  have h100 : (m : ℚ) ≤ q * 100 := by linarith
  have := le_roundHalfEven h100
  have : (m : ℚ) ≤ (roundHalfEven (q * 100) : ℚ) := by exact_mod_cast this
  unfold pyRound2
  linarith

/-! ## ScoringService (backend/app/services/scoring_service.py) -/

/-- The relevant entries of the LLM-produced score dict consumed by
`ScoringService.score_answer`.  Numeric entries are `Option ℚ` (`none` =
missing / `None` / not float-coercible).  `final_score` is
`Option (Option ℚ)`: the outer `none` means `dict.get` returned `None`
(key missing or value null, the case where the code recomputes the final
score); `some v` means a non-null value was present, with `v : Option ℚ`
its coercion result.  `strengths`/`weaknesses` may be a string or a list. -/
structure LLMScores where
  communication_score : Option ℚ
  content_score : Option ℚ
  relevance_score : Option ℚ
  confidence_score : Option ℚ
  final_score : Option (Option ℚ)
  feedback : Option String
  strengths : Option (String ⊕ List String)
  weaknesses : Option (String ⊕ List String)

/-- `ScoringService._to_score_10`: coerce (with a default on failure),
rescale values in [0, 1] by ×10, clamp to [0, 10]. -/
def toScore10D (value : Option ℚ) (default : ℚ) : ℚ :=
  let numeric := value.getD default
  let numeric := if 0 ≤ numeric ∧ numeric ≤ 1 then numeric * 10 else numeric
  max 0 (min 10 numeric)

/-- The `seen`-set deduplication loop of `ScoringService._to_points`. -/
def dedupCI : List String → List String → List String
  | [], _ => []
  | p :: rest, seen =>
    let key := lowerStr p
    if key ∈ seen then dedupCI rest seen else p :: dedupCI rest (key :: seen)

/-- `ScoringService._to_points`. -/
def toPoints (value : Option (String ⊕ List String)) (fallback : String) : List String :=
  let points :=
    match value with
    | some (Sum.inr items) => (items.map pyStrip).filter (· ≠ "")
    | some (Sum.inl s) => if pyStrip s = "" then [] else [pyStrip s]
    | none => []
  if points = [] then [fallback]
  else (dedupCI points []).take 4

/-- The dict returned by `ScoringService.score_answer`. -/
structure ScoreOut where
  communication_score : ℚ
  content_score : ℚ
  confidence_score : ℚ
  final_score : ℚ
  feedback : String
  strengths : List String
  weaknesses : List String

/-- `score_answer` local `communication` (line 26). -/
def communicationOf (d : LLMScores) : ℚ := toScore10D d.communication_score 0

/-- `score_answer` local `content_raw` (line 27). -/
def contentRawOf (d : LLMScores) : ℚ := toScore10D d.content_score 0

/-- `score_answer` local `relevance` (line 28): the coerced
`relevance_score`, defaulting to the coerced `content_score`. -/
def relevanceOf (d : LLMScores) : ℚ := toScore10D d.relevance_score (contentRawOf d)

/-- `score_answer` local `confidence` (line 29). -/
def confidenceOf (d : LLMScores) : ℚ := toScore10D d.confidence_score 0

/-- `score_answer` local `content` (lines 32–36): relevance blend with
the low-relevance caps. -/
def contentOf (d : LLMScores) : ℚ :=
  if relevanceOf d ≤ 3 then min (contentRawOf d * 0.6 + relevanceOf d * 0.4) 3.5
  else if relevanceOf d ≤ 5 then min (contentRawOf d * 0.6 + relevanceOf d * 0.4) 5.5
  else contentRawOf d * 0.6 + relevanceOf d * 0.4

/-- `score_answer` local `final` (lines 38–51): weighted formula when the
LLM supplied no final score, otherwise the coerced LLM final with the
low-relevance guardrail caps. -/
def finalOf (d : LLMScores) : ℚ :=
  match d.final_score with
  | none =>
      communicationOf d * 0.45 + contentOf d * 0.45 + confidenceOf d * 0.10
  | some v =>
      if relevanceOf d ≤ 3 then min (toScore10D v 0) 4.5
      else if relevanceOf d ≤ 5 then min (toScore10D v 0) 6.5
      else toScore10D v 0

/-- The body of `ScoringService.score_answer` after the
`if not llm_override: raise` guard (lines 26–74). -/
def scoreAnswerOk (d : LLMScores) : ScoreOut :=
  { communication_score := pyRound2 (communicationOf d)
    content_score := pyRound2 (contentOf d)
    confidence_score := pyRound2 (confidenceOf d)
    final_score := pyRound2 (finalOf d)
    feedback :=
      if pyStrip (d.feedback.getD "") = "" then
        "Improve clarity, answer relevance, and confidence."
      else pyStrip (d.feedback.getD "")
    strengths := toPoints d.strengths "Shows intent to address the question."
    weaknesses := toPoints d.weaknesses "Needs stronger structure, relevance, and specificity." }

/-- `ScoringService.score_answer`; `none` models a falsy `llm_override`
(`None` or an empty dict), which raises `ValueError`. -/
def scoreAnswer (llm_override : Option LLMScores) : Except String ScoreOut :=
  match llm_override with
  | none =>
      Except.error
        "OpenAI scoring is required. Set USE_OPENAI_EVAL=true and configure OPENAI_API_KEY."
  | some d => Except.ok (scoreAnswerOk d)

/-- `ScoringService.classify_score`. -/
def classifyScore (score : ℚ) : String :=
  if score ≤ 2.5 then "Below Average"
  else if score ≤ 5 then "Average"
  else if score < 7.5 then "Good"
  else "Excellent"

theorem toScore10D_nonneg (v : Option ℚ) (dft : ℚ) : 0 ≤ toScore10D v dft :=
  le_max_left 0 _

theorem toScore10D_le_ten (v : Option ℚ) (dft : ℚ) : toScore10D v dft ≤ 10 := by
  unfold toScore10D
  exact max_le (by norm_num) (min_le_left _ _)

theorem pyRound2_mem_Icc {q a b : ℚ} {ma mb : ℤ} (ha : a = (ma : ℚ) / 100)
    (hb : b = (mb : ℚ) / 100) (h1 : a ≤ q) (h2 : q ≤ b) :
    a ≤ pyRound2 q ∧ pyRound2 q ≤ b := by
  subst ha hb
  exact ⟨le_pyRound2 h1, pyRound2_le h2⟩

theorem contentOf_nonneg (d : LLMScores) : 0 ≤ contentOf d := by
  have h1 := toScore10D_nonneg d.content_score 0
  have h2 := toScore10D_nonneg d.relevance_score (contentRawOf d)
  unfold contentOf relevanceOf contentRawOf at *
  split_ifs <;> [exact le_min (by linarith) (by norm_num);
    exact le_min (by linarith) (by norm_num); linarith]

theorem contentOf_le_ten (d : LLMScores) : contentOf d ≤ 10 := by
  have h1 := toScore10D_le_ten d.content_score 0
  have h2 := toScore10D_le_ten d.relevance_score (contentRawOf d)
  unfold contentOf relevanceOf contentRawOf at *
  split_ifs <;> [exact le_trans (min_le_left _ _) (by linarith);
    exact le_trans (min_le_left _ _) (by linarith); linarith]

theorem finalOf_nonneg (d : LLMScores) : 0 ≤ finalOf d := by
  unfold finalOf
  match hfs : d.final_score with
  | none =>
    have h1 := toScore10D_nonneg d.communication_score 0
    have h2 := contentOf_nonneg d
    have h3 := toScore10D_nonneg d.confidence_score 0
    unfold communicationOf confidenceOf at *
    linarith
  | some v =>
    have h := toScore10D_nonneg v 0
    split_ifs <;> [exact le_min h (by norm_num); exact le_min h (by norm_num); exact h]

theorem finalOf_le_ten (d : LLMScores) : finalOf d ≤ 10 := by
  unfold finalOf
  match hfs : d.final_score with
  | none =>
    have h1 := toScore10D_le_ten d.communication_score 0
    have h2 := contentOf_le_ten d
    have h3 := toScore10D_le_ten d.confidence_score 0
    unfold communicationOf confidenceOf at *
    linarith
  | some v =>
    have h := toScore10D_le_ten v 0
    split_ifs <;> [exact le_trans (min_le_left _ _) h; exact le_trans (min_le_left _ _) h; exact h]

/-- C10: every numeric score returned by `score_answer` lies in [0, 10],
for every accepted input dict (any combination of missing, non-numeric,
negative or above-10 values). -/
theorem scoreAnswer_scores_in_unit_interval (d : LLMScores) :
    (0 ≤ (scoreAnswerOk d).communication_score ∧ (scoreAnswerOk d).communication_score ≤ 10) ∧
    (0 ≤ (scoreAnswerOk d).content_score ∧ (scoreAnswerOk d).content_score ≤ 10) ∧
    (0 ≤ (scoreAnswerOk d).confidence_score ∧ (scoreAnswerOk d).confidence_score ≤ 10) ∧
    (0 ≤ (scoreAnswerOk d).final_score ∧ (scoreAnswerOk d).final_score ≤ 10) := by
  have hz : (0 : ℚ) = ((0 : ℤ) : ℚ) / 100 := by norm_num
  have ht : (10 : ℚ) = ((1000 : ℤ) : ℚ) / 100 := by norm_num
  refine ⟨?_, ?_, ?_, ?_⟩ <;> unfold scoreAnswerOk <;> dsimp only
  · exact pyRound2_mem_Icc hz ht (toScore10D_nonneg _ _) (toScore10D_le_ten _ _)
  · exact pyRound2_mem_Icc hz ht (contentOf_nonneg d) (contentOf_le_ten d)
  · exact pyRound2_mem_Icc hz ht (toScore10D_nonneg _ _) (toScore10D_le_ten _ _)
  · exact pyRound2_mem_Icc hz ht (finalOf_nonneg d) (finalOf_le_ten d)

/-- C2: `classify_score` maps `score ≤ 2.5` to "Below Average",
`2.5 < score ≤ 5` to "Average", `5 < score < 7.5` to "Good" and
`7.5 ≤ score` to "Excellent"; in particular at the boundary inputs
2.5, 2.51, 5, 5.01, 7.49 and 7.5. -/
theorem classifyScore_bands (s : ℚ) :
    (s ≤ 2.5 → classifyScore s = "Below Average") ∧
    (2.5 < s → s ≤ 5 → classifyScore s = "Average") ∧
    (5 < s → s < 7.5 → classifyScore s = "Good") ∧
    (7.5 ≤ s → classifyScore s = "Excellent") ∧
    classifyScore 2.5 = "Below Average" ∧ classifyScore 2.51 = "Average" ∧
    classifyScore 5 = "Average" ∧ classifyScore 5.01 = "Good" ∧
    classifyScore 7.49 = "Good" ∧ classifyScore 7.5 = "Excellent" := by
  refine ⟨?_, ?_, ?_, ?_, by norm_num [classifyScore], by norm_num [classifyScore],
    by norm_num [classifyScore], by norm_num [classifyScore], by norm_num [classifyScore],
    by norm_num [classifyScore]⟩ <;> intros <;> unfold classifyScore <;>
    split_ifs <;> first | rfl | linarith

/-- Witness for `classifyScore_bands` at the concrete input 3. -/
theorem classifyScore_bands_witness :
    (2.5 : ℚ) < 3 ∧ (3 : ℚ) ≤ 5 ∧ classifyScore 3 = "Average" :=
  ⟨by norm_num, by norm_num, (classifyScore_bands 3).2.1 (by norm_num) (by norm_num)⟩

/-- C1 counterexample: for the accepted dict with `communication = 10`,
`content = 3`, `relevance = 3`, `confidence = 10` and NO `final_score`
entry, the coerced relevance is 3 (≤ 3) but `score_answer` returns
`final_score = 6.85 > 4.5` — the relevance-based caps on the final score
are only applied when the dict carries a model-supplied final score. -/
theorem scoring_caps_cex :
    relevanceOf ⟨some 10, some 3, some 3, some 10, none, none, none, none⟩ ≤ 3 ∧
    (scoreAnswerOk ⟨some 10, some 3, some 3, some 10, none, none, none, none⟩).final_score = 6.85 ∧
    ¬ (scoreAnswerOk ⟨some 10, some 3, some 3, some 10, none, none, none, none⟩).final_score ≤ 4.5 := by
  norm_num [scoreAnswerOk, finalOf, contentOf, relevanceOf, contentRawOf, communicationOf,
    confidenceOf, toScore10D, pyRound2, roundHalfEven]

/-- C1 (amended): when the LLM dict carries a non-null `final_score`
entry, the relevance caps hold: coerced relevance ≤ 3 forces the returned
`final_score ≤ 4.5`, and coerced relevance ≤ 5 forces it ≤ 6.5 —
whatever the other dimensions hold. -/
theorem scoring_relevance_caps (d : LLMScores) (v : Option ℚ)
    (hfs : d.final_score = some v) :
    (relevanceOf d ≤ 3 → (scoreAnswerOk d).final_score ≤ 4.5) ∧
    (relevanceOf d ≤ 5 → (scoreAnswerOk d).final_score ≤ 6.5) := by
  have h45 : (4.5 : ℚ) = ((450 : ℤ) : ℚ) / 100 := by norm_num
  have h65 : (6.5 : ℚ) = ((650 : ℤ) : ℚ) / 100 := by norm_num
  have hfinal : (scoreAnswerOk d).final_score = pyRound2 (finalOf d) := rfl
  constructor
  · intro h3
    rw [hfinal, h45]
    refine pyRound2_le ?_
    unfold finalOf
    rw [hfs]
    dsimp only
    rw [if_pos h3]
    calc min (toScore10D v 0) 4.5 ≤ 4.5 := min_le_right _ _
      _ = ((450 : ℤ) : ℚ) / 100 := by norm_num
  · intro h5
    rw [hfinal, h65]
    refine pyRound2_le ?_
    unfold finalOf
    rw [hfs]
    dsimp only
    by_cases h3 : relevanceOf d ≤ 3
    · rw [if_pos h3]
      calc min (toScore10D v 0) 4.5 ≤ 4.5 := min_le_right _ _
        _ ≤ ((650 : ℤ) : ℚ) / 100 := by norm_num
    · rw [if_neg h3, if_pos h5]
      calc min (toScore10D v 0) 6.5 ≤ 6.5 := min_le_right _ _
        _ = ((650 : ℤ) : ℚ) / 100 := by norm_num

/-- Witness for `scoring_relevance_caps` at a concrete dict with
`relevance = 2` and a model-supplied `final_score = 9`. -/
theorem scoring_relevance_caps_witness :
    relevanceOf ⟨some 2, some 2, some 2, some 2, some (some 9), none, none, none⟩ ≤ 3 ∧
    (scoreAnswerOk ⟨some 2, some 2, some 2, some 2, some (some 9), none, none, none⟩).final_score ≤ 4.5 :=
  ⟨by norm_num [relevanceOf, contentRawOf, toScore10D],
    (scoring_relevance_caps _ (some 9) rfl).1
      (by norm_num [relevanceOf, contentRawOf, toScore10D])⟩

/-! ## QuestionService (backend/app/services/question_service.py) -/

/-- One entry of the static question bank JSON. -/
structure Question where
  id : Nat
  text : String
  topic : String
  qtype : String
deriving DecidableEq

/-- The question-bank JSON payload.  `selection_mode`/`question_count`
model `payload.get(key, default)` (`none` = key absent). -/
structure QuestionBank where
  questions : List Question
  always_include_ids : List Nat
  fixed_question_ids : Option (List Nat)
  selection_mode : Option String
  question_count : Option Nat
deriving DecidableEq

/-- Line 26: `mode = selection_mode or settings.question_selection_mode or
payload.get("selection_mode", "fixed")` — Python `or` falls through on
falsy values (`None`, `""`). -/
def resolveMode (arg : Option String) (settingsMode : String) (payload : QuestionBank) : String :=
  if arg.getD "" ≠ "" then arg.getD ""
  else if settingsMode ≠ "" then settingsMode
  else payload.selection_mode.getD "fixed"

/-- Line 27: `count = question_count or settings.question_count or
payload.get("question_count", 5)` — Python `or` falls through on falsy
values (`None`, `0`). -/
def resolveCount (arg : Option Nat) (settingsCount : Nat) (payload : QuestionBank) : Nat :=
  if arg.getD 0 ≠ 0 then arg.getD 0
  else if settingsCount ≠ 0 then settingsCount
  else payload.question_count.getD 5

/-- The `always` list of mixed mode (line 35). -/
def alwaysOf (payload : QuestionBank) : List Question :=
  payload.questions.filter (fun q => q.id ∈ payload.always_include_ids)

/-- The `pool` list of mixed mode (line 36). -/
def poolOf (payload : QuestionBank) : List Question :=
  payload.questions.filter (fun q => q.id ∉ payload.always_include_ids)

/-- The `selected` list built by `select_questions` before the
insufficient-count check (lines 33–48).  `sampler` stands for
`random.sample`: the code always calls it with `k = min(needed, len(pool))`. -/
def selectedOf (sampler : List Question → Nat → List Question) (mode : String)
    (count : Nat) (payload : QuestionBank) : List Question :=
  if mode = "mixed" then
    alwaysOf payload ++
      sampler (poolOf payload) (min (count - (alwaysOf payload).length) (poolOf payload).length)
  else
    match payload.fixed_question_ids with
    | some fixedIds =>
      if fixedIds ≠ [] then
        (payload.questions.filter (fun q => q.id ∈ fixedIds)).insertionSort
          (fun a b => fixedIds.indexOf a.id ≤ fixedIds.indexOf b.id)
      else
        let fixed := payload.questions.filter (fun q => q.qtype = "fixed")
        if fixed ≠ [] then fixed else payload.questions
    | none =>
      let fixed := payload.questions.filter (fun q => q.qtype = "fixed")
      if fixed ≠ [] then fixed else payload.questions

/-- `QuestionService.select_questions` (lines 19–55), with the question
bank passed in place of the JSON file read, and the random source as the
`sampler` parameter. -/
def selectQuestions (sampler : List Question → Nat → List Question)
    (selection_mode : Option String) (question_count : Option Nat)
    (settingsMode : String) (settingsCount : Nat)
    (payload : QuestionBank) : Except String (List Question) :=
  if payload.questions = [] then
    Except.error "No questions configured in question bank"
  else if (selectedOf sampler (resolveMode selection_mode settingsMode payload)
      (resolveCount question_count settingsCount payload) payload).length <
      resolveCount question_count settingsCount payload then
    Except.error "Insufficient question count."
  else
    Except.ok ((selectedOf sampler (resolveMode selection_mode settingsMode payload)
      (resolveCount question_count settingsCount payload) payload).take
      (resolveCount question_count settingsCount payload))

instance {ε α : Type} [DecidableEq ε] [DecidableEq α] : DecidableEq (Except ε α) :=
  fun a b =>
    match a, b with
    | Except.ok a, Except.ok b =>
        if h : a = b then Decidable.isTrue (congrArg Except.ok h)
        else Decidable.isFalse (fun hc => h (Except.ok.inj hc))
    | Except.error a, Except.error b =>
        if h : a = b then Decidable.isTrue (congrArg Except.error h)
        else Decidable.isFalse (fun hc => h (Except.error.inj hc))
    | Except.ok _, Except.error _ => Decidable.isFalse (fun hc => Except.noConfusion hc)
    | Except.error _, Except.ok _ => Decidable.isFalse (fun hc => Except.noConfusion hc)

/-- C4 counterexample: bank of two questions, both ids in the
always-include set, requested count 1.  `select_questions` succeeds but
truncates `always + random_selected` to one element, so always-include
id 2 is missing from the result even though a bank question carries it. -/
theorem selectQuestions_mixed_truncation_cex :
    selectQuestions (fun pool k => pool.take k) (some "mixed") (some 1) "mixed" 5
        ⟨[⟨1, "q1", "t", "fixed"⟩, ⟨2, "q2", "t", "fixed"⟩], [1, 2], none, none, none⟩ =
      Except.ok [⟨1, "q1", "t", "fixed"⟩] ∧
    (2 ∈ [1, 2]) ∧ (⟨2, "q2", "t", "fixed"⟩ : Question) ∈
        [(⟨1, "q1", "t", "fixed"⟩ : Question), ⟨2, "q2", "t", "fixed"⟩] ∧
    ∀ q ∈ [(⟨1, "q1", "t", "fixed"⟩ : Question)], q.id ≠ 2 := by
  decide

/-- C4 (amended): in mixed mode, every bank question whose id is in the
always-include set appears in the returned list, provided the number of
such bank questions does not exceed the resolved count (otherwise the
final truncation to `count` can drop some of them). -/
theorem selectQuestions_mixed_always_included
    (sampler : List Question → Nat → List Question)
    (sm : Option String) (qc : Option Nat) (setM : String) (setC : Nat)
    (payload : QuestionBank)
    (hmode : resolveMode sm setM payload = "mixed")
    (hcnt : (alwaysOf payload).length ≤ resolveCount qc setC payload)
    (l : List Question)
    (hok : selectQuestions sampler sm qc setM setC payload = Except.ok l)
    (q : Question) (hq : q ∈ payload.questions)
    (hid : q.id ∈ payload.always_include_ids) :
    q ∈ l := by
  unfold selectQuestions at hok
  rw [hmode] at hok
  split_ifs at hok with hempty hshort
  rw [Except.ok.injEq] at hok
  subst hok
  unfold selectedOf
  rw [if_pos rfl]
  have hqa : q ∈ alwaysOf payload := by
    unfold alwaysOf
    simp only [List.mem_filter]
    exact ⟨hq, by simpa using hid⟩
  rw [List.take_append_eq_append_take]
  refine List.mem_append_left _ ?_
  rwa [List.take_of_length_le hcnt]

/-- Witness for `selectQuestions_mixed_always_included`: a concrete
three-question bank with always-include set {2} and count 2. -/
theorem selectQuestions_mixed_always_included_witness :
    (⟨2, "q2", "t", "fixed"⟩ : Question) ∈
      [(⟨2, "q2", "t", "fixed"⟩ : Question), ⟨1, "q1", "t", "fixed"⟩] :=
  selectQuestions_mixed_always_included (fun pool k => pool.take k)
    (some "mixed") (some 2) "mixed" 5
    ⟨[⟨1, "q1", "t", "fixed"⟩, ⟨2, "q2", "t", "fixed"⟩, ⟨3, "q3", "t", "fixed"⟩], [2], none, none, none⟩
    (by decide) (by decide) _ (by decide) _ (by decide) (by decide)

/-- C5 counterexample: a requested count of 0 is falsy in Python, so
`question_count or settings.question_count or ...` resolves to the
settings default (5) and `select_questions` returns five questions
instead of zero (and does not raise). -/
theorem selectQuestions_zero_count_cex :
    selectQuestions (fun pool k => pool.take k) none (some 0) "mixed" 5
        ⟨[⟨1, "a", "t", "fixed"⟩, ⟨2, "b", "t", "fixed"⟩, ⟨3, "c", "t", "fixed"⟩,
          ⟨4, "d", "t", "fixed"⟩, ⟨5, "e", "t", "fixed"⟩], [], none, none, none⟩ =
      Except.ok [⟨1, "a", "t", "fixed"⟩, ⟨2, "b", "t", "fixed"⟩, ⟨3, "c", "t", "fixed"⟩,
          ⟨4, "d", "t", "fixed"⟩, ⟨5, "e", "t", "fixed"⟩] := by
  decide

/-- C5 (amended): for every positive requested count N, `select_questions`
either returns exactly N questions or fails; in particular whenever the
mode-filtered candidate list is shorter than N it returns an error. -/
theorem selectQuestions_exact_count
    (sampler : List Question → Nat → List Question)
    (sm : Option String) (setM : String) (setC : Nat)
    (payload : QuestionBank) (N : Nat) (hN : 0 < N) :
    (∀ l, selectQuestions sampler sm (some N) setM setC payload = Except.ok l →
      l.length = N) ∧
    ((selectedOf sampler (resolveMode sm setM payload) N payload).length < N →
      ∃ e, selectQuestions sampler sm (some N) setM setC payload = Except.error e) := by
  have hcount : resolveCount (some N) setC payload = N := by
    unfold resolveCount
    simp [Nat.pos_iff_ne_zero.mp hN]
  constructor
  · intro l hok
    unfold selectQuestions at hok
    rw [hcount] at hok
    split_ifs at hok with hempty hshort
    rw [Except.ok.injEq] at hok
    subst hok
    rw [List.length_take]
    omega
  · intro hshort
    unfold selectQuestions
    rw [hcount]
    split_ifs with hempty
    · exact ⟨_, rfl⟩
    · exact ⟨_, rfl⟩

/-- Witness for `selectQuestions_exact_count` at a concrete bank and N = 1. -/
theorem selectQuestions_exact_count_witness :
    (0 : Nat) < 1 ∧
    (∀ l, selectQuestions (fun pool k => pool.take k) none (some 1) "mixed" 5
        ⟨[⟨1, "a", "t", "fixed"⟩, ⟨2, "b", "t", "fixed"⟩], [], none, none, none⟩ = Except.ok l →
      l.length = 1) :=
  ⟨by decide,
    (selectQuestions_exact_count (fun pool k => pool.take k) none "mixed" 5
      ⟨[⟨1, "a", "t", "fixed"⟩, ⟨2, "b", "t", "fixed"⟩], [], none, none, none⟩ 1 (by decide)).1⟩

/-! ## TranscriptionService (backend/app/services/transcription_service.py) -/

/-- `text.split(" ")` (single-space separator, keeps empty pieces). -/
def splitSpAux : List Char → List Char → List (List Char)
  | [], acc => [acc.reverse]
  | c :: rest, acc =>
    if c = ' ' then acc.reverse :: splitSpAux rest [] else splitSpAux rest (c :: acc)

/-- `text.split(" ")`. -/
def splitSp (s : String) : List String := (splitSpAux s.data []).map fun l => ⟨l⟩

/-- `" ".join(ws)`. -/
def joinSp : List String → String
  | [] => ""
  | [w] => w
  | w :: ws => w ++ " " ++ joinSp ws

/-- `text.split()` (split on whitespace runs, dropping empty pieces). -/
def wordsOfAux : List Char → List Char → List (List Char)
  | [], acc => if acc.isEmpty then [] else [acc.reverse]
  | c :: rest, acc =>
    if pyIsSpace c then
      if acc.isEmpty then wordsOfAux rest [] else acc.reverse :: wordsOfAux rest []
    else wordsOfAux rest (c :: acc)

/-- `text.split()`. -/
def wordsOf (s : String) : List String := (wordsOfAux s.data []).map fun l => ⟨l⟩

/-- `TranscriptionService._normalize_whitespace`. -/
def normalizeWS (t : Option String) : String :=
  match t with
  | none => ""
  | some s => if s = "" then "" else joinSp (wordsOf s)

/-- List-of-words prefix test (`words[i:i+n] == segment` at the head). -/
def isPrefixList : List String → List String → Bool
  | [], _ => true
  | _ :: _, [] => false
  | x :: xs, y :: ys => x = y && isPrefixList xs ys

/-- The inner `while words[i:i+n] == segment: i += n` skip loop of
`_collapse_repeated_ngrams`.  The fuel is always called with the length
of the word list, which bounds the iteration count since every step
drops `|segment| ≥ 1` words. -/
def skipCopiesF : Nat → List String → List String → List String
  | 0, _, ws => ws
  | fuel+1, seg, ws =>
    if seg ≠ [] ∧ isPrefixList seg ws then skipCopiesF fuel seg (ws.drop seg.length)
    else ws

/-- One scan of `_collapse_repeated_ngrams` for a fixed window size `n`
(the `while i < len(words)` loop, lines 230–245): when the next `2n`
words are two copies of the same block, keep one copy and skip all
consecutive repetitions, else keep one word and advance.  Fuel is called
with the list length, which bounds the steps (each consumes ≥ 1 word). -/
def collapsePassF : Nat → Nat → List String → List String
  | 0, _, ws => ws
  | fuel+1, n, ws =>
    match ws with
    | [] => []
    | w :: rest =>
      if 2 * n ≤ ws.length ∧ ws.take n = (ws.drop n).take n then
        ws.take n ++
          collapsePassF fuel n (skipCopiesF (ws.drop n).length (ws.take n) (ws.drop n))
      else
        w :: collapsePassF fuel n rest

/-- `range(max_n, 0, -1)`: the window sizes `[m, m-1, …, 1]`. -/
def rangeDown : Nat → List Nat
  | 0 => []
  | n+1 => (n+1) :: rangeDown n

/-- One sweep of the `for n in range(max_n, 0, -1)` loop: apply the
single-window pass for every window size in order. -/
def sweepF : List Nat → List String → List String
  | [], ws => ws
  | n :: ns, ws => sweepF ns (collapsePassF ws.length n ws)

/-- The `while changed` loop of `_collapse_repeated_ngrams`: repeat the
sweep until no pass shrinks the word list (a pass changes the list iff it
shrinks it, so the Python `changed` flag is equivalent to a length
decrease).  Fuel is called with `length + 1`, enough for the loop to
reach its fixed point (each repeated iteration strictly shrinks the list). -/
def collapseLoopF : Nat → List Nat → List String → List String
  | 0, _, ws => ws
  | fuel+1, ns, ws =>
    if (sweepF ns ws).length < ws.length then collapseLoopF fuel ns (sweepF ns ws)
    else sweepF ns ws

/-- The trailing adjacent case-insensitive dedup of
`_collapse_repeated_ngrams` (lines 247–251), beyond the first word. -/
def dedupAdjAux : String → List String → List String
  | _, [] => []
  | last, w :: rest =>
    if lowerStr w = lowerStr last then dedupAdjAux last rest else w :: dedupAdjAux w rest

/-- The trailing adjacent case-insensitive dedup. -/
def dedupAdj : List String → List String
  | [] => []
  | w :: rest => w :: dedupAdjAux w rest

/-- `TranscriptionService._collapse_repeated_ngrams`. -/
def collapseRepeatedNgrams (text : String) : String :=
  if (splitSp text).length < 2 then text
  else
    joinSp (dedupAdj (collapseLoopF ((splitSp text).length + 1)
      (rangeDown (min 12 ((splitSp text).length / 2))) (splitSp text)))

/-- `TranscriptionService.clean_text`. -/
def cleanText (t : Option String) : String :=
  if normalizeWS t = "" then ""
  else normalizeWS (some (collapseRepeatedNgrams (normalizeWS t)))

theorem isPrefixList_iff (xs ys : List String) :
    isPrefixList xs ys = true ↔ ys.take xs.length = xs := by
  induction xs generalizing ys with
  | nil => simp [isPrefixList]
  | cons x xs ih =>
    cases ys with
    | nil => simp [isPrefixList]
    | cons y ys =>
      simp only [isPrefixList, List.length_cons, List.take_succ_cons, Bool.and_eq_true,
        decide_eq_true_eq, List.cons.injEq, ih]
      constructor
      · rintro ⟨h1, h2⟩
        exact ⟨h1.symm, h2⟩
      · rintro ⟨h1, h2⟩
        exact ⟨h1.symm, h2⟩

theorem skipCopiesF_length_le (fuel : Nat) (seg : List String) (ws : List String) :
    (skipCopiesF fuel seg ws).length ≤ ws.length := by
  induction fuel generalizing ws with
  | zero => simp [skipCopiesF]
  | succ f ih =>
    unfold skipCopiesF
    split
    · exact le_trans (ih _) (by simp)
    · exact le_rfl

theorem skipCopiesF_length_lt {seg ws : List String} (fuel : Nat) (hfuel : 1 ≤ fuel)
    (hseg : seg ≠ []) (hpre : isPrefixList seg ws = true) :
    (skipCopiesF fuel seg ws).length ≤ ws.length - seg.length := by
  match fuel, hfuel with
  | f + 1, _ =>
    unfold skipCopiesF
    rw [if_pos ⟨hseg, hpre⟩]
    calc (skipCopiesF f seg (ws.drop seg.length)).length
        ≤ (ws.drop seg.length).length := skipCopiesF_length_le _ _ _
      _ = ws.length - seg.length := by simp

theorem mem_of_mem_skipCopiesF {fuel : Nat} {seg ws : List String} {w : String}
    (h : w ∈ skipCopiesF fuel seg ws) : w ∈ ws := by
  induction fuel generalizing ws with
  | zero => simpa [skipCopiesF] using h
  | succ f ih =>
    unfold skipCopiesF at h
    split at h
    · exact List.mem_of_mem_drop (ih h)
    · exact h

theorem mem_skipCopiesF_of_mem {fuel : Nat} {seg ws : List String} {w : String}
    (h : w ∈ ws) : w ∈ seg ∨ w ∈ skipCopiesF fuel seg ws := by
  induction fuel generalizing ws with
  | zero => exact Or.inr (by simpa [skipCopiesF] using h)
  | succ f ih =>
    unfold skipCopiesF
    split
    · rename_i hcond
      have htake : ws.take seg.length = seg := (isPrefixList_iff _ _).mp hcond.2
      rcases List.mem_append.mp ((List.take_append_drop seg.length ws) ▸ h) with hl | hr
      · exact Or.inl (htake ▸ hl)
      · exact ih hr
    · exact Or.inr h

theorem collapsePassF_length_le (fuel n : Nat) (ws : List String) :
    (collapsePassF fuel n ws).length ≤ ws.length := by
  induction fuel generalizing ws with
  | zero => simp [collapsePassF]
  | succ f ih =>
    cases ws with
    | nil => simp [collapsePassF]
    | cons w rest =>
      simp only [collapsePassF]
      split
      · rename_i hcond
        rw [List.length_append]
        have h1 := ih (skipCopiesF ((w :: rest).drop n).length ((w :: rest).take n) ((w :: rest).drop n))
        have h2 := skipCopiesF_length_le ((w :: rest).drop n).length ((w :: rest).take n) ((w :: rest).drop n)
        have h3 : ((w :: rest).take n).length ≤ n := by
          rw [List.length_take]
          omega
        have h4 : ((w :: rest).drop n).length = (w :: rest).length - n := by simp
        simp only [List.length_cons] at *
        omega
      · rename_i hcond
        simpa using ih rest

theorem collapsePassF_eq_of_length {n : Nat} (hn : 1 ≤ n) (fuel : Nat) (ws : List String)
    (hlen : (collapsePassF fuel n ws).length = ws.length) :
    collapsePassF fuel n ws = ws := by
  induction fuel generalizing ws with
  | zero => simp [collapsePassF]
  | succ f ih =>
    cases ws with
    | nil => simp [collapsePassF]
    | cons w rest =>
      simp only [collapsePassF] at hlen ⊢
      by_cases hcond : 2 * n ≤ (w :: rest).length ∧
          List.take n (w :: rest) = List.take n (List.drop n (w :: rest))
      · exfalso
        rw [if_pos hcond] at hlen
        have hlc : (w :: rest).length = rest.length + 1 := by simp
        have htk : ((w :: rest).take n).length = n := by
          rw [List.length_take]
          rw [hlc] at hcond
          omega
        have hseg : (w :: rest).take n ≠ [] := by
          intro hnil
          rw [hnil] at htk
          simp at htk
          omega
        have hpre : isPrefixList ((w :: rest).take n) ((w :: rest).drop n) = true := by
          rw [isPrefixList_iff, htk]
          exact hcond.2.symm
        have hd : ((w :: rest).drop n).length = rest.length + 1 - n := by simp
        have hfs : 1 ≤ ((w :: rest).drop n).length := by
          rw [hd]
          rw [hlc] at hcond
          omega
        have hsl : (skipCopiesF ((w :: rest).drop n).length ((w :: rest).take n)
            ((w :: rest).drop n)).length ≤ rest.length + 1 - n - n := by
          calc (skipCopiesF ((w :: rest).drop n).length ((w :: rest).take n)
                ((w :: rest).drop n)).length
              ≤ ((w :: rest).drop n).length - ((w :: rest).take n).length :=
                skipCopiesF_length_lt ((w :: rest).drop n).length hfs hseg hpre
            _ = rest.length + 1 - n - n := by rw [htk, hd]
        have hps := collapsePassF_length_le f n
          (skipCopiesF ((w :: rest).drop n).length ((w :: rest).take n) ((w :: rest).drop n))
        rw [List.length_append, htk] at hlen
        rw [hlc] at hcond
        simp only [List.length_cons] at hlen
        omega
      · rw [if_neg hcond] at hlen ⊢
        simp only [List.length_cons, Nat.add_right_cancel_iff] at hlen
        rw [ih rest hlen]

theorem mem_collapsePassF_of_mem {fuel n : Nat} {ws : List String} {w : String}
    (h : w ∈ ws) : w ∈ collapsePassF fuel n ws := by
  induction fuel generalizing ws with
  | zero => simpa [collapsePassF]
  | succ f ih =>
    cases ws with
    | nil => simpa [collapsePassF] using h
    | cons x rest =>
      simp only [collapsePassF]
      split <;> rename_i hcond
      · rcases List.mem_append.mp ((List.take_append_drop n (x :: rest)) ▸ h) with hl | hr
        · exact List.mem_append_left _ hl
        · rcases @mem_skipCopiesF_of_mem (((x :: rest).drop n).length)
            ((x :: rest).take n) _ _ hr with hs | hs
          · exact List.mem_append_left _ hs
          · exact List.mem_append_right _ (ih hs)
      · rcases List.mem_cons.mp h with hl | hr
        · exact List.mem_cons.mpr (Or.inl hl)
        · exact List.mem_cons_of_mem _ (ih hr)

theorem mem_of_mem_collapsePassF {fuel n : Nat} {ws : List String} {w : String}
    (h : w ∈ collapsePassF fuel n ws) : w ∈ ws := by
  induction fuel generalizing ws with
  | zero => simpa [collapsePassF] using h
  | succ f ih =>
    cases ws with
    | nil => simpa [collapsePassF] using h
    | cons x rest =>
      simp only [collapsePassF] at h
      split at h <;> rename_i hcond
      · rcases List.mem_append.mp h with hl | hr
        · exact List.mem_of_mem_take hl
        · exact List.mem_of_mem_drop (mem_of_mem_skipCopiesF (ih hr))
      · rcases List.mem_cons.mp h with hl | hr
        · exact hl ▸ List.mem_cons_self x rest
        · exact List.mem_cons_of_mem _ (ih hr)

theorem sweepF_length_le (ns : List Nat) (ws : List String) :
    (sweepF ns ws).length ≤ ws.length := by
  induction ns generalizing ws with
  | nil => simp [sweepF]
  | cons n ns ih =>
    calc (sweepF ns (collapsePassF ws.length n ws)).length
        ≤ (collapsePassF ws.length n ws).length := ih _
      _ ≤ ws.length := collapsePassF_length_le _ _ _

theorem mem_sweepF_of_mem {ns : List Nat} {ws : List String} {w : String}
    (h : w ∈ ws) : w ∈ sweepF ns ws := by
  induction ns generalizing ws with
  | nil => simpa [sweepF] using h
  | cons n ns ih => exact ih (mem_collapsePassF_of_mem h)

theorem mem_of_mem_sweepF {ns : List Nat} {ws : List String} {w : String}
    (h : w ∈ sweepF ns ws) : w ∈ ws := by
  induction ns generalizing ws with
  | nil => simpa [sweepF] using h
  | cons n ns ih => exact mem_of_mem_collapsePassF (ih h)

theorem sweepF_fix_of_length {ns : List Nat} {ws : List String}
    (hns : ∀ n ∈ ns, 1 ≤ n) (hlen : (sweepF ns ws).length = ws.length) :
    sweepF ns ws = ws ∧ ∀ n ∈ ns, collapsePassF ws.length n ws = ws := by
  induction ns generalizing ws with
  | nil => exact ⟨rfl, by simp⟩
  | cons n ns ih =>
    have hstep : sweepF (n :: ns) ws = sweepF ns (collapsePassF ws.length n ws) := rfl
    rw [hstep] at hlen
    have h1 : (sweepF ns (collapsePassF ws.length n ws)).length ≤
        (collapsePassF ws.length n ws).length := sweepF_length_le _ _
    have h2 : (collapsePassF ws.length n ws).length ≤ ws.length :=
      collapsePassF_length_le _ _ _
    have hpass : collapsePassF ws.length n ws = ws :=
      collapsePassF_eq_of_length (hns n (List.mem_cons_self n ns)) _ _ (by omega)
    rw [hpass] at hlen
    have := ih (fun m hm => hns m (List.mem_cons_of_mem n hm)) hlen
    refine ⟨?_, ?_⟩
    · rw [hstep, hpass]
      exact this.1
    · intro m hm
      rcases List.mem_cons.mp hm with hl | hr
      · exact hl ▸ hpass
      · exact this.2 m hr

theorem sweepF_eq_of_pass_fix {ns : List Nat} {ws : List String}
    (h : ∀ n ∈ ns, collapsePassF ws.length n ws = ws) : sweepF ns ws = ws := by
  induction ns with
  | nil => rfl
  | cons n ns ih =>
    have hstep : sweepF (n :: ns) ws = sweepF ns (collapsePassF ws.length n ws) := rfl
    rw [hstep, h n (List.mem_cons_self n ns)]
    exact ih (fun m hm => h m (List.mem_cons_of_mem n hm))

theorem mem_collapseLoopF_of_mem {fuel : Nat} {ns : List Nat} {ws : List String} {w : String}
    (h : w ∈ ws) : w ∈ collapseLoopF fuel ns ws := by
  induction fuel generalizing ws with
  | zero => simpa [collapseLoopF] using h
  | succ f ih =>
    simp only [collapseLoopF]
    split
    · exact ih (mem_sweepF_of_mem h)
    · exact mem_sweepF_of_mem h

theorem mem_of_mem_collapseLoopF {fuel : Nat} {ns : List Nat} {ws : List String} {w : String}
    (h : w ∈ collapseLoopF fuel ns ws) : w ∈ ws := by
  induction fuel generalizing ws with
  | zero => simpa [collapseLoopF] using h
  | succ f ih =>
    simp only [collapseLoopF] at h
    split at h
    · exact mem_of_mem_sweepF (ih h)
    · exact mem_of_mem_sweepF h

theorem collapseLoopF_fix {fuel : Nat} {ns : List Nat} {ws : List String}
    (hfuel : ws.length + 1 ≤ fuel) (hns : ∀ n ∈ ns, 1 ≤ n) :
    sweepF ns (collapseLoopF fuel ns ws) = collapseLoopF fuel ns ws := by
  induction fuel generalizing ws with
  | zero => omega
  | succ f ih =>
    simp only [collapseLoopF]
    split
    · rename_i hlt
      have hle : (sweepF ns ws).length + 1 ≤ f := by
        have := sweepF_length_le ns ws
        omega
      exact ih hle
    · rename_i hlt
      have hle := sweepF_length_le ns ws
      have hfix := (@sweepF_fix_of_length _ ws hns (by omega)).1
      rw [hfix]
      exact hfix

theorem collapseLoopF_id {fuel : Nat} {ns : List Nat} {ws : List String}
    (hfuel : 1 ≤ fuel) (h : sweepF ns ws = ws) : collapseLoopF fuel ns ws = ws := by
  match fuel, hfuel with
  | f + 1, _ =>
    simp only [collapseLoopF, h]
    simp

/-- No two adjacent words are (case-sensitively) equal. -/
def adjNe : List String → Prop
  | [] => True
  | [_] => True
  | w1 :: w2 :: rest => w1 ≠ w2 ∧ adjNe (w2 :: rest)

theorem adjNe_of_pass_one_fix {fuel : Nat} {ws : List String}
    (hfuel : ws.length ≤ fuel) (h : collapsePassF fuel 1 ws = ws) : adjNe ws := by
  induction fuel generalizing ws with
  | zero =>
    have : ws = [] := List.length_eq_zero.mp (by omega)
    simp [this, adjNe]
  | succ f ih =>
    match ws, h with
    | [], _ => trivial
    | [w], _ => trivial
    | w1 :: w2 :: rest2, h =>
      simp only [collapsePassF] at h
      have hcond_iff : (2 * 1 ≤ (w1 :: w2 :: rest2).length ∧
          List.take 1 (w1 :: w2 :: rest2) = List.take 1 (List.drop 1 (w1 :: w2 :: rest2))) ↔
          w1 = w2 := by
        simp [List.take, List.drop]
      by_cases hw : w1 = w2
      · exfalso
        rw [if_pos (hcond_iff.mpr hw)] at h
        have hlh := congrArg List.length h
        rw [List.length_append] at hlh
        have hseg : List.take 1 (w1 :: w2 :: rest2) ≠ [] := by simp
        have hpre : isPrefixList (List.take 1 (w1 :: w2 :: rest2))
            (List.drop 1 (w1 :: w2 :: rest2)) = true := by
          rw [isPrefixList_iff]
          simp [hw]
        have hskip := skipCopiesF_length_lt (List.drop 1 (w1 :: w2 :: rest2)).length
          (by simp) hseg hpre
        have hps := collapsePassF_length_le f 1
          (skipCopiesF (List.drop 1 (w1 :: w2 :: rest2)).length
            (List.take 1 (w1 :: w2 :: rest2)) (List.drop 1 (w1 :: w2 :: rest2)))
        simp only [List.length_take, List.length_drop, List.length_cons] at hlh hskip hps
        omega
      · rw [if_neg (fun hc => hw (hcond_iff.mp hc))] at h
        have htail : collapsePassF f 1 (w2 :: rest2) = w2 :: rest2 := by
          injection h with _ htl
        refine ⟨hw, ih ?_ htail⟩
        simp only [List.length_cons] at hfuel ⊢
        omega

theorem mem_of_mem_dedupAdjAux {last : String} {ws : List String} {w : String}
    (h : w ∈ dedupAdjAux last ws) : w ∈ ws := by
  induction ws generalizing last with
  | nil => simpa [dedupAdjAux] using h
  | cons x rest ih =>
    simp only [dedupAdjAux] at h
    split at h
    · exact List.mem_cons_of_mem _ (ih h)
    · rcases List.mem_cons.mp h with hl | hr
      · exact List.mem_cons.mpr (Or.inl hl)
      · exact List.mem_cons_of_mem _ (ih hr)

theorem mem_of_mem_dedupAdj {ws : List String} {w : String}
    (h : w ∈ dedupAdj ws) : w ∈ ws := by
  cases ws with
  | nil => simpa [dedupAdj] using h
  | cons x rest =>
    rcases List.mem_cons.mp h with hl | hr
    · exact List.mem_cons.mpr (Or.inl hl)
    · exact List.mem_cons_of_mem _ (mem_of_mem_dedupAdjAux hr)

theorem dedupAdjAux_lower_mem {last : String} {ws : List String} {w : String}
    (h : w ∈ ws) :
    lowerStr w = lowerStr last ∨ ∃ v ∈ dedupAdjAux last ws, lowerStr v = lowerStr w := by
  induction ws generalizing last with
  | nil => cases h
  | cons x rest ih =>
    simp only [dedupAdjAux]
    rcases List.mem_cons.mp h with hl | hr
    · subst hl
      split
      · rename_i hx
        exact Or.inl hx
      · exact Or.inr ⟨w, List.mem_cons_self _ _, rfl⟩
    · split
      · rename_i hx
        rcases @ih last hr with hc | ⟨v, hv, hlv⟩
        · exact Or.inl hc
        · exact Or.inr ⟨v, hv, hlv⟩
      · rcases @ih x hr with hc | ⟨v, hv, hlv⟩
        · exact Or.inr ⟨x, List.mem_cons_self _ _, hc.symm⟩
        · exact Or.inr ⟨v, List.mem_cons_of_mem _ hv, hlv⟩

theorem dedupAdj_lower_mem {ws : List String} {w : String} (h : w ∈ ws) :
    ∃ v ∈ dedupAdj ws, lowerStr v = lowerStr w := by
  cases ws with
  | nil => cases h
  | cons x rest =>
    rcases List.mem_cons.mp h with hl | hr
    · exact ⟨x, List.mem_cons_self _ _, by rw [hl]⟩
    · rcases @dedupAdjAux_lower_mem x _ _ hr with hc | ⟨v, hv, hlv⟩
      · exact ⟨x, List.mem_cons_self _ _, hc.symm⟩
      · exact ⟨v, List.mem_cons_of_mem _ hv, hlv⟩

theorem dedupAdjAux_eq_self {last : String} {ws : List String}
    (h : adjNe (last :: ws)) (hlow : ∀ w ∈ last :: ws, lowerStr w = w) :
    dedupAdjAux last ws = ws := by
  induction ws generalizing last with
  | nil => rfl
  | cons x rest ih =>
    have hne : last ≠ x := h.1
    have hlx : lowerStr x = x := hlow x (List.mem_cons_of_mem _ (List.mem_cons_self _ _))
    have hll : lowerStr last = last := hlow last (List.mem_cons_self _ _)
    simp only [dedupAdjAux]
    rw [if_neg (by rw [hlx, hll]; exact fun hc => hne hc.symm)]
    rw [ih h.2 (fun w hw => hlow w (List.mem_cons_of_mem _ hw))]

theorem dedupAdj_eq_self {ws : List String}
    (h : adjNe ws) (hlow : ∀ w ∈ ws, lowerStr w = w) : dedupAdj ws = ws := by
  cases ws with
  | nil => rfl
  | cons x rest =>
    simp only [dedupAdj]
    rw [dedupAdjAux_eq_self h hlow]

theorem collapseLoopF_length_le (fuel : Nat) (ns : List Nat) (ws : List String) :
    (collapseLoopF fuel ns ws).length ≤ ws.length := by
  induction fuel generalizing ws with
  | zero => simp [collapseLoopF]
  | succ f ih =>
    simp only [collapseLoopF]
    split
    · exact le_trans (ih _) (sweepF_length_le _ _)
    · exact sweepF_length_le _ _

theorem mem_rangeDown_iff (m k : Nat) : k ∈ rangeDown m ↔ 1 ≤ k ∧ k ≤ m := by
  induction m with
  | zero =>
    simp only [rangeDown, List.not_mem_nil, false_iff]
    omega
  | succ m ih =>
    simp only [rangeDown, List.mem_cons, ih]
    omega

theorem wordsOfAux_sound {l : List Char} {acc : List Char}
    (hacc : ∀ c ∈ acc, pyIsSpace c = false)
    {w : List Char} (h : w ∈ wordsOfAux l acc) :
    w ≠ [] ∧ ∀ c ∈ w, (c ∈ l ∨ c ∈ acc) ∧ pyIsSpace c = false := by
  induction l generalizing acc with
  | nil =>
    simp only [wordsOfAux] at h
    split at h
    · cases h
    · rename_i hne
      rcases List.mem_singleton.mp h with rfl
      refine ⟨by simpa using fun hc => hne (by simp [hc]), ?_⟩
      intro c hc
      exact ⟨Or.inr (List.mem_reverse.mp hc), hacc c (List.mem_reverse.mp hc)⟩
  | cons x rest ih =>
    simp only [wordsOfAux] at h
    split at h
    · rename_i hsp
      split at h
      · have := @ih [] (by simp) h
        refine ⟨this.1, fun c hc => ?_⟩
        rcases this.2 c hc with ⟨hin, hns⟩
        rcases hin with hin | hin
        · exact ⟨Or.inl (List.mem_cons_of_mem _ hin), hns⟩
        · cases hin
      · rcases List.mem_cons.mp h with rfl | hmem
        · refine ⟨?_, ?_⟩
          · rename_i hne
            simpa using fun hc => hne (by simp [hc])
          · intro c hc
            exact ⟨Or.inr (List.mem_reverse.mp hc), hacc c (List.mem_reverse.mp hc)⟩
        · have := @ih [] (by simp) hmem
          refine ⟨this.1, fun c hc => ?_⟩
          rcases this.2 c hc with ⟨hin, hns⟩
          rcases hin with hin | hin
          · exact ⟨Or.inl (List.mem_cons_of_mem _ hin), hns⟩
          · cases hin
    · rename_i hsp
      have := @ih (x :: acc)
        (by
          intro c hc
          rcases List.mem_cons.mp hc with rfl | hc2
          · exact Bool.not_eq_true _ ▸ (by simpa using hsp)
          · exact hacc c hc2) h
      refine ⟨this.1, fun c hc => ?_⟩
      rcases this.2 c hc with ⟨hin, hns⟩
      rcases hin with hin | hin
      · exact ⟨Or.inl (List.mem_cons_of_mem _ hin), hns⟩
      · rcases List.mem_cons.mp hin with rfl | hc2
        · exact ⟨Or.inl (List.mem_cons_self _ _), hns⟩
        · exact ⟨Or.inr hc2, hns⟩

theorem wordsOf_sound {s : String} {w : String} (h : w ∈ wordsOf s) :
    w.data ≠ [] ∧ ∀ c ∈ w.data, c ∈ s.data ∧ pyIsSpace c = false := by
  unfold wordsOf at h
  rcases List.mem_map.mp h with ⟨l, hl, rfl⟩
  have := @wordsOfAux_sound _ [] (by simp) _ hl
  refine ⟨this.1, fun c hc => ?_⟩
  rcases this.2 c hc with ⟨hin, hns⟩
  rcases hin with hin | hin
  · exact ⟨hin, hns⟩
  · cases hin

theorem splitSpAux_no_space {l acc : List Char} (hl : ∀ c ∈ l, c ≠ ' ') :
    splitSpAux l acc = [acc.reverse ++ l] := by
  induction l generalizing acc with
  | nil => simp [splitSpAux]
  | cons c rest ih =>
    simp only [splitSpAux]
    rw [if_neg (by exact_mod_cast hl c (List.mem_cons_self _ _))]
    rw [ih (fun c hc => hl c (List.mem_cons_of_mem _ hc))]
    simp

theorem splitSpAux_append {w rest acc : List Char} (hw : ∀ c ∈ w, c ≠ ' ') :
    splitSpAux (w ++ ' ' :: rest) acc = (acc.reverse ++ w) :: splitSpAux rest [] := by
  induction w generalizing acc with
  | nil => simp [splitSpAux]
  | cons c w ih =>
    have hstep : splitSpAux ((c :: w) ++ ' ' :: rest) acc =
        splitSpAux (w ++ ' ' :: rest) (c :: acc) := by
      simp only [List.cons_append, splitSpAux]
      rw [if_neg (by exact_mod_cast hw c (List.mem_cons_self _ _))]
      rfl
    rw [hstep, ih (fun c hc => hw c (List.mem_cons_of_mem _ hc))]
    simp

theorem splitSp_joinSp {ws : List String} (hne : ws ≠ [])
    (hwf : ∀ w ∈ ws, ∀ c ∈ w.data, c ≠ ' ') : splitSp (joinSp ws) = ws := by
  induction ws with
  | nil => exact absurd rfl hne
  | cons w ws ih =>
    cases ws with
    | nil =>
      unfold splitSp joinSp
      rw [splitSpAux_no_space (hwf w (List.mem_cons_self _ _))]
      simp
    | cons w2 ws2 =>
      have hjoin : joinSp (w :: w2 :: ws2) = w ++ " " ++ joinSp (w2 :: ws2) := rfl
      unfold splitSp
      rw [hjoin]
      have hdata : (w ++ " " ++ joinSp (w2 :: ws2)).data =
          w.data ++ ' ' :: (joinSp (w2 :: ws2)).data := by
        rw [String.data_append, String.data_append]
        simp
      rw [hdata, splitSpAux_append (hwf w (List.mem_cons_self _ _))]
      simp only [List.reverse_nil, List.nil_append, List.map_cons]
      have := ih (by simp) (fun v hv => hwf v (List.mem_cons_of_mem _ hv))
      unfold splitSp at this
      rw [this]

theorem wordsOfAux_last {w acc : List Char} (hw : ∀ c ∈ w, pyIsSpace c = false)
    (hne : acc.reverse ++ w ≠ []) : wordsOfAux w acc = [acc.reverse ++ w] := by
  induction w generalizing acc with
  | nil =>
    simp only [wordsOfAux]
    rw [if_neg (by simpa using hne)]
    simp
  | cons c w ih =>
    simp only [wordsOfAux]
    rw [if_neg (by simp [hw c (List.mem_cons_self _ _)])]
    rw [ih (fun c hc => hw c (List.mem_cons_of_mem _ hc)) (by simp)]
    simp

theorem wordsOfAux_word {w rest acc : List Char} (hw : ∀ c ∈ w, pyIsSpace c = false)
    (hne : acc.reverse ++ w ≠ []) :
    wordsOfAux (w ++ ' ' :: rest) acc = (acc.reverse ++ w) :: wordsOfAux rest [] := by
  induction w generalizing acc with
  | nil =>
    simp only [List.nil_append, wordsOfAux]
    rw [if_pos (by decide)]
    rw [if_neg (by simpa using hne)]
    simp
  | cons c w ih =>
    have hstep : wordsOfAux ((c :: w) ++ ' ' :: rest) acc =
        wordsOfAux (w ++ ' ' :: rest) (c :: acc) := by
      simp only [List.cons_append, wordsOfAux]
      rw [if_neg (by simp [hw c (List.mem_cons_self _ _)])]
      rfl
    rw [hstep, ih (fun c hc => hw c (List.mem_cons_of_mem _ hc))
      (by
        intro hc
        have := congrArg List.length hc
        simp at this)]
    simp

theorem wordsOf_joinSp {ws : List String} (hne : ws ≠ [])
    (hwf : ∀ w ∈ ws, w.data ≠ [] ∧ ∀ c ∈ w.data, pyIsSpace c = false) :
    wordsOf (joinSp ws) = ws := by
  induction ws with
  | nil => exact absurd rfl hne
  | cons w ws ih =>
    cases ws with
    | nil =>
      unfold wordsOf joinSp
      rw [wordsOfAux_last (hwf w (List.mem_cons_self _ _)).2
        (by simpa using (hwf w (List.mem_cons_self _ _)).1)]
      simp
    | cons w2 ws2 =>
      have hjoin : joinSp (w :: w2 :: ws2) = w ++ " " ++ joinSp (w2 :: ws2) := rfl
      unfold wordsOf
      rw [hjoin]
      have hdata : (w ++ " " ++ joinSp (w2 :: ws2)).data =
          w.data ++ ' ' :: (joinSp (w2 :: ws2)).data := by
        rw [String.data_append, String.data_append]
        simp
      rw [hdata, wordsOfAux_word (hwf w (List.mem_cons_self _ _)).2
        (by simpa using (hwf w (List.mem_cons_self _ _)).1)]
      simp only [List.reverse_nil, List.nil_append, List.map_cons]
      have := ih (by simp) (fun v hv => hwf v (List.mem_cons_of_mem _ hv))
      unfold wordsOf at this
      rw [this]

theorem normalizeWS_some (s : String) : normalizeWS (some s) = joinSp (wordsOf s) := by
  show (if s = "" then "" else joinSp (wordsOf s)) = joinSp (wordsOf s)
  split
  · rename_i hs
    subst hs
    rfl
  · rfl

theorem joinSp_ne_empty {ws : List String} (hne : ws ≠ [])
    (h : ∀ w ∈ ws, w.data ≠ []) : joinSp ws ≠ "" := by
  cases ws with
  | nil => exact absurd rfl hne
  | cons w ws =>
    cases ws with
    | nil =>
      intro hc
      exact h w (List.mem_cons_self _ _) (congrArg String.data hc)
    | cons w2 ws2 =>
      intro hc
      have := congrArg String.data hc
      rw [show joinSp (w :: w2 :: ws2) = w ++ " " ++ joinSp (w2 :: ws2) from rfl,
        String.data_append, String.data_append] at this
      simp at this

theorem dedupAdj_ne_nil {ws : List String} (h : ws ≠ []) : dedupAdj ws ≠ [] := by
  cases ws with
  | nil => exact absurd rfl h
  | cons w rest => simp [dedupAdj]

theorem map_pyLower_id {l : List Char} (h : ∀ c ∈ l, pyLower c = c) :
    l.map pyLower = l := by
  induction l with
  | nil => rfl
  | cons c rest ih =>
    simp only [List.map_cons, h c (List.mem_cons_self _ _),
      ih (fun c hc => h c (List.mem_cons_of_mem _ hc))]

theorem cleanText_small {s : String} (h : (wordsOf s).length < 2) :
    cleanText (some s) = joinSp (wordsOf s) := by
  unfold cleanText
  rw [normalizeWS_some]
  by_cases hz : joinSp (wordsOf s) = ""
  · rw [if_pos hz, hz]
  · rw [if_neg hz]
    match hW : wordsOf s with
    | [] => exact absurd (by rw [hW]; exact rfl) hz
    | [w] =>
      have hwmem : w ∈ wordsOf s := by rw [hW]; exact List.mem_singleton.mpr rfl
      have hsound := wordsOf_sound hwmem
      have hjw : joinSp [w] = w := rfl
      rw [hjw]
      have hnosp : ∀ c ∈ w.data, c ≠ ' ' := by
        intro c hc hceq
        have := (hsound.2 c hc).2
        rw [hceq] at this
        simp [pyIsSpace] at this
      have hsplit : splitSp w = [w] := by
        unfold splitSp
        rw [splitSpAux_no_space hnosp]
        simp
      unfold collapseRepeatedNgrams
      rw [hsplit]
      rw [if_pos (by simp)]
      rw [normalizeWS_some]
      have hww : wordsOf w = [w] := by
        have := @wordsOf_joinSp [w] (by simp)
          (by
            intro v hv
            rcases List.mem_singleton.mp hv with rfl
            exact ⟨hsound.1, fun c hc => (hsound.2 c hc).2⟩)
        rwa [hjw] at this
      rw [hww]
      exact hjw
    | w1 :: w2 :: rest =>
      rw [hW] at h
      simp at h
      omega

theorem cleanText_big {s : String} (h : 2 ≤ (wordsOf s).length) :
    cleanText (some s) =
      joinSp (dedupAdj (collapseLoopF ((wordsOf s).length + 1)
        (rangeDown (min 12 ((wordsOf s).length / 2))) (wordsOf s))) := by
  have hwf : ∀ w ∈ wordsOf s, w.data ≠ [] ∧ ∀ c ∈ w.data, pyIsSpace c = false :=
    fun w hw => ⟨(wordsOf_sound hw).1, fun c hc => ((wordsOf_sound hw).2 c hc).2⟩
  have hu0ne : wordsOf s ≠ [] := by
    intro hc
    rw [hc] at h
    simp at h
  unfold cleanText
  rw [normalizeWS_some]
  rw [if_neg (joinSp_ne_empty hu0ne (fun w hw => (hwf w hw).1))]
  unfold collapseRepeatedNgrams
  have hsplit : splitSp (joinSp (wordsOf s)) = wordsOf s := by
    refine splitSp_joinSp hu0ne ?_
    intro w hw c hc hceq
    have := (hwf w hw).2 c hc
    rw [hceq] at this
    simp [pyIsSpace] at this
  rw [hsplit]
  rw [if_neg (by omega)]
  rw [normalizeWS_some]
  have hune : dedupAdj (collapseLoopF ((wordsOf s).length + 1)
      (rangeDown (min 12 ((wordsOf s).length / 2))) (wordsOf s)) ≠ [] := by
    refine dedupAdj_ne_nil ?_
    obtain ⟨w0, hw0⟩ := List.exists_mem_of_ne_nil (wordsOf s) hu0ne
    exact List.ne_nil_of_mem (mem_collapseLoopF_of_mem hw0)
  rw [wordsOf_joinSp hune
    (fun w hw => hwf w (mem_of_mem_collapseLoopF (mem_of_mem_dedupAdj hw)))]

/-- C3 counterexample: `clean_text` is not idempotent.  On "b a A b a"
the n-gram collapse finds nothing (comparisons are case-sensitive), but
the trailing case-insensitive dedup drops "A", creating the block repeat
"b a b a", which a second `clean_text` collapses to "b a". -/
theorem cleanText_not_idempotent_cex :
    cleanText (some "b a A b a") = "b a b a" ∧
    cleanText (some (cleanText (some "b a A b a"))) = "b a" ∧
    cleanText (some (cleanText (some "b a A b a"))) ≠ cleanText (some "b a A b a") := by
  refine ⟨by decide, by decide, by decide⟩

/-- C3 (amended): `clean_text` is idempotent on every string of ASCII
characters that lowercasing leaves unchanged (in particular any ASCII
string with no uppercase letters).  In general idempotence fails, because
the final case-insensitive adjacent dedup can create a new block repeat
(see the counterexample). -/
theorem cleanText_idempotent_on_lower (s : String)
    (hs : ∀ c ∈ s.data, c.toNat < 128 ∧ pyLower c = c) :
    cleanText (some (cleanText (some s))) = cleanText (some s) := by
  by_cases hlen : (wordsOf s).length < 2
  · rw [cleanText_small hlen]
    match hW : wordsOf s with
    | [] =>
      show cleanText (some (joinSp [])) = joinSp []
      decide
    | [w] =>
      have hwmem : w ∈ wordsOf s := by rw [hW]; exact List.mem_singleton.mpr rfl
      have hsound := wordsOf_sound hwmem
      have hjw : joinSp [w] = w := rfl
      show cleanText (some (joinSp [w])) = joinSp [w]
      rw [hjw]
      have hww : wordsOf w = [w] := by
        have := @wordsOf_joinSp [w] (by simp)
          (by
            intro v hv
            rcases List.mem_singleton.mp hv with rfl
            exact ⟨hsound.1, fun c hc => (hsound.2 c hc).2⟩)
        rwa [hjw] at this
      rw [cleanText_small (by rw [hww]; simp), hww]
      exact hjw
    | w1 :: w2 :: rest =>
      rw [hW] at hlen
      simp at hlen
      omega
  · have h2 : 2 ≤ (wordsOf s).length := not_lt.mp hlen
    rw [cleanText_big h2]
    have hns1 : ∀ n ∈ rangeDown (min 12 ((wordsOf s).length / 2)), 1 ≤ n :=
      fun n hn => ((mem_rangeDown_iff _ _).mp hn).1
    have hfix : sweepF (rangeDown (min 12 ((wordsOf s).length / 2)))
        (collapseLoopF ((wordsOf s).length + 1)
          (rangeDown (min 12 ((wordsOf s).length / 2))) (wordsOf s)) =
        collapseLoopF ((wordsOf s).length + 1)
          (rangeDown (min 12 ((wordsOf s).length / 2))) (wordsOf s) :=
      collapseLoopF_fix (le_refl _) hns1
    have hpass := (sweepF_fix_of_length hns1 (by rw [hfix])).2
    have hmin1 : 1 ≤ min 12 ((wordsOf s).length / 2) := by
      refine le_min (by norm_num) ?_
      omega
    have h1mem : 1 ∈ rangeDown (min 12 ((wordsOf s).length / 2)) :=
      (mem_rangeDown_iff _ _).mpr ⟨le_refl 1, hmin1⟩
    have hadj : adjNe (collapseLoopF ((wordsOf s).length + 1)
        (rangeDown (min 12 ((wordsOf s).length / 2))) (wordsOf s)) :=
      adjNe_of_pass_one_fix (le_refl _) (hpass 1 h1mem)
    have hlow : ∀ w ∈ collapseLoopF ((wordsOf s).length + 1)
        (rangeDown (min 12 ((wordsOf s).length / 2))) (wordsOf s), lowerStr w = w := by
      intro w hw
      have hw0 : w ∈ wordsOf s := mem_of_mem_collapseLoopF hw
      have hschars := (wordsOf_sound hw0).2
      unfold lowerStr
      rw [map_pyLower_id (fun c hc => (hs c (hschars c hc).1).2)]
    rw [dedupAdj_eq_self hadj hlow]
    have hrwf : ∀ w ∈ collapseLoopF ((wordsOf s).length + 1)
        (rangeDown (min 12 ((wordsOf s).length / 2))) (wordsOf s),
        w.data ≠ [] ∧ ∀ c ∈ w.data, pyIsSpace c = false := by
      intro w hw
      have hw0 := wordsOf_sound (mem_of_mem_collapseLoopF hw)
      exact ⟨hw0.1, fun c hc => (hw0.2 c hc).2⟩
    have hrne : collapseLoopF ((wordsOf s).length + 1)
        (rangeDown (min 12 ((wordsOf s).length / 2))) (wordsOf s) ≠ [] := by
      have hu0ne : wordsOf s ≠ [] := by
        intro hc
        rw [hc] at h2
        simp at h2
      obtain ⟨w0, hw0⟩ := List.exists_mem_of_ne_nil (wordsOf s) hu0ne
      exact List.ne_nil_of_mem (mem_collapseLoopF_of_mem hw0)
    have hwords : wordsOf (joinSp (collapseLoopF ((wordsOf s).length + 1)
        (rangeDown (min 12 ((wordsOf s).length / 2))) (wordsOf s))) =
        collapseLoopF ((wordsOf s).length + 1)
          (rangeDown (min 12 ((wordsOf s).length / 2))) (wordsOf s) :=
      wordsOf_joinSp hrne hrwf
    by_cases hr2 : (wordsOf (joinSp (collapseLoopF ((wordsOf s).length + 1)
        (rangeDown (min 12 ((wordsOf s).length / 2))) (wordsOf s)))).length < 2
    · rw [cleanText_small hr2, hwords]
    · rw [cleanText_big (not_lt.mp hr2), hwords]
      have hrlen : (collapseLoopF ((wordsOf s).length + 1)
          (rangeDown (min 12 ((wordsOf s).length / 2))) (wordsOf s)).length ≤
          (wordsOf s).length := collapseLoopF_length_le _ _ _
      have hsub : ∀ n ∈ rangeDown (min 12 ((collapseLoopF ((wordsOf s).length + 1)
          (rangeDown (min 12 ((wordsOf s).length / 2))) (wordsOf s)).length / 2)),
          n ∈ rangeDown (min 12 ((wordsOf s).length / 2)) := by
        intro n hn
        rw [mem_rangeDown_iff] at hn ⊢
        omega
      have hfix2 : sweepF (rangeDown (min 12 ((collapseLoopF ((wordsOf s).length + 1)
          (rangeDown (min 12 ((wordsOf s).length / 2))) (wordsOf s)).length / 2)))
          (collapseLoopF ((wordsOf s).length + 1)
            (rangeDown (min 12 ((wordsOf s).length / 2))) (wordsOf s)) =
          collapseLoopF ((wordsOf s).length + 1)
            (rangeDown (min 12 ((wordsOf s).length / 2))) (wordsOf s) :=
      sweepF_eq_of_pass_fix (fun n hn => hpass n (hsub n hn))
      rw [collapseLoopF_id (by omega) hfix2]
      rw [dedupAdj_eq_self hadj hlow]

/-- Witness for `cleanText_idempotent_on_lower` at the concrete input
"go go go go" (spec example: it cleans to "go"). -/
theorem cleanText_idempotent_on_lower_witness :
    (∀ c ∈ ("go go go go" : String).data, c.toNat < 128 ∧ pyLower c = c) ∧
    cleanText (some "go go go go") = "go" ∧
    cleanText (some (cleanText (some "go go go go"))) = cleanText (some "go go go go") :=
  ⟨by decide, by decide, cleanText_idempotent_on_lower _ (by decide)⟩

/-- ASCII Latin letters — the range accepted by
`_is_allowed_script_text`. -/
def isAsciiLatin (c : Char) : Bool :=
  (65 ≤ c.toNat && c.toNat ≤ 90) || (97 ≤ c.toNat && c.toNat ≤ 122)

/-- Letters (Unicode `Alphabetic`) of the Devanagari block U+0900–U+097F;
the rest of the block (matras, combining marks, digits, punctuation) is
not alphabetic. -/
def isDevanagariLetter (c : Char) : Bool :=
  (0x904 ≤ c.toNat && c.toNat ≤ 0x939) || c.toNat = 0x93D || c.toNat = 0x950 ||
  (0x958 ≤ c.toNat && c.toNat ≤ 0x961) || (0x971 ≤ c.toNat && c.toNat ≤ 0x97F)

/-- Letters of the basic Cyrillic block U+0400–U+04FF (the block minus
the combining marks U+0482–U+0489). -/
def isCyrillicLetter (c : Char) : Bool :=
  (0x400 ≤ c.toNat && c.toNat ≤ 0x481) || (0x48A ≤ c.toNat && c.toNat ≤ 0x4FF)

/-- CJK Unified Ideographs U+4E00–U+9FFF (all alphabetic in Python). -/
def isCJK (c : Char) : Bool := 0x4E00 ≤ c.toNat && c.toNat ≤ 0x9FFF

/-- `str.isalpha()` for one character, modelled for the scripts this
code inspects (ASCII Latin, Devanagari, basic Cyrillic, CJK); `false`
outside these ranges. -/
def pyIsAlpha (c : Char) : Bool :=
  isAsciiLatin c || isDevanagariLetter c || isCyrillicLetter c || isCJK c

/-- `TranscriptionService._is_allowed_script_text`: every alphabetic
character must be ASCII Latin. -/
def isAllowedScriptText (s : String) : Bool :=
  s.data.all fun c => !pyIsAlpha c || isAsciiLatin c

/-- `needle` is a prefix of `hay` (character lists). -/
def startsWithL : List Char → List Char → Bool
  | [], _ => true
  | _ :: _, [] => false
  | x :: xs, y :: ys => x = y && startsWithL xs ys

/-- Python's `needle in hay` substring test. -/
def containsSubL : List Char → List Char → Bool
  | needle, [] => needle.isEmpty
  | needle, c :: rest => startsWithL needle (c :: rest) || containsSubL needle rest

/-- `TranscriptionService._looks_like_unsupported_marker`. -/
def looksLikeUnsupportedMarker (s : String) : Bool :=
  containsSubL "unsupported language".data (lowerStr s).data ||
  containsSubL "cannot transcribe".data (lowerStr s).data ||
  containsSubL "unable to transcribe".data (lowerStr s).data ||
  containsSubL "only hindi or english".data (lowerStr s).data

/-- The `vowels` dict of `_transliterate_devanagari_basic`. -/
def vowelsTable : List (Char × String) :=
  [('अ', "a"), ('आ', "aa"), ('इ', "i"), ('ई', "ii"), ('उ', "u"), ('ऊ', "uu"),
   ('ए', "e"), ('ऐ', "ai"), ('ओ', "o"), ('औ', "au"), ('ऋ', "ri")]

/-- The `consonants` dict of `_transliterate_devanagari_basic`.  The last
seven keys are the precomposed nukta consonants U+0958–U+095E, as in the
source file. -/
def consTable : List (Char × String) :=
  [('क', "k"), ('ख', "kh"), ('ग', "g"), ('घ', "gh"), ('ङ', "n"),
   ('च', "ch"), ('छ', "chh"), ('ज', "j"), ('झ', "jh"), ('ञ', "ny"),
   ('ट', "t"), ('ठ', "th"), ('ड', "d"), ('ढ', "dh"), ('ण', "n"),
   ('त', "t"), ('थ', "th"), ('द', "d"), ('ध', "dh"), ('न', "n"),
   ('प', "p"), ('फ', "ph"), ('ब', "b"), ('भ', "bh"), ('म', "m"),
   ('य', "y"), ('र', "r"), ('ल', "l"), ('व', "v"), ('श', "sh"),
   ('ष', "sh"), ('स', "s"), ('ह', "h"),
   ('\u0958', "q"), ('\u0959', "kh"), ('\u095A', "gh"), ('\u095B', "z"),
   ('\u095E', "f"), ('\u095C', "r"), ('\u095D', "rh")]

/-- The `matras` (vowel signs) dict of `_transliterate_devanagari_basic`. -/
def matrasTable : List (Char × String) :=
  [('ा', "aa"), ('ि', "i"), ('ी', "ii"), ('ु', "u"), ('ू', "uu"),
   ('े', "e"), ('ै', "ai"), ('ो', "o"), ('ौ', "au"), ('ृ', "ri")]

/-- The `marks` dict of `_transliterate_devanagari_basic`
(nasalisation/visarga/nukta). -/
def marksTable : List (Char × String) :=
  [('ं', "n"), ('ँ', "n"), ('ः', "h"), ('़', "")]

/-- `vowels.get(ch)` — dict lookup. -/
def vowelMap (c : Char) : Option String :=
  (vowelsTable.find? (fun p => p.1 = c)).map Prod.snd

/-- `consonants.get(ch)` — dict lookup. -/
def consMap (c : Char) : Option String :=
  (consTable.find? (fun p => p.1 = c)).map Prod.snd

/-- `matras.get(ch)` — dict lookup. -/
def matraMap (c : Char) : Option String :=
  (matrasTable.find? (fun p => p.1 = c)).map Prod.snd

/-- `marks.get(ch)` — dict lookup. -/
def markMap (c : Char) : Option String :=
  (marksTable.find? (fun p => p.1 = c)).map Prod.snd

/-- The halant (virama) character, dropped by the transliteration. -/
def halant : Char := '्'

/-- The character scan of `_transliterate_devanagari_basic`
(lines 297–347): vowels and consonants map through the tables, a
consonant absorbs a following halant/matra/mark, stray matras and marks
map alone, a stray halant is dropped, anything else passes through. -/
def translitAux : List Char → List String
  | [] => []
  | [c] =>
    match vowelMap c with
    | some v => [v]
    | none =>
      match consMap c with
      | some b => [b ++ "a"]
      | none =>
        match matraMap c with
        | some m => [m]
        | none =>
          match markMap c with
          | some mk => [mk]
          | none => if c = halant then [] else [String.singleton c]
  | c :: nxt :: rest2 =>
    match vowelMap c with
    | some v => v :: translitAux (nxt :: rest2)
    | none =>
      match consMap c with
      | some b =>
        if nxt = halant then b :: translitAux rest2
        else
          match matraMap nxt with
          | some m => (b ++ m) :: translitAux rest2
          | none =>
            match markMap nxt with
            | some mk => (b ++ "a" ++ mk) :: translitAux rest2
            | none => (b ++ "a") :: translitAux (nxt :: rest2)
      | none =>
        match matraMap c with
        | some m => m :: translitAux (nxt :: rest2)
        | none =>
          match markMap c with
          | some mk => mk :: translitAux (nxt :: rest2)
          | none =>
            if c = halant then translitAux (nxt :: rest2)
            else String.singleton c :: translitAux (nxt :: rest2)

/-- `"".join(out)`. -/
def concatAll : List String → String
  | [] => ""
  | s :: rest => s ++ concatAll rest

/-- `TranscriptionService._transliterate_devanagari_basic`. -/
def transliterateDevanagariBasic (s : String) : String := concatAll (translitAux s.data)

/-- Membership in the Devanagari code block U+0900–U+097F (the check in
`_to_hinglish`). -/
def isDevanagariCode (c : Char) : Bool := 0x900 ≤ c.toNat && c.toNat ≤ 0x97F

/-- `TranscriptionService._to_hinglish`. -/
def toHinglish (s : String) : String :=
  if s = "" then ""
  else if s.data.any isDevanagariCode then transliterateDevanagariBasic s
  else s

/-- `TranscriptionService._prepare_candidate`. -/
def prepareCandidate (text : Option String) : String :=
  if cleanText text = "" then ""
  else if cleanText (some (toHinglish (cleanText text))) = "" then ""
  else if looksLikeUnsupportedMarker (cleanText (some (toHinglish (cleanText text)))) then ""
  else if !isAllowedScriptText (cleanText (some (toHinglish (cleanText text)))) then ""
  else cleanText (some (toHinglish (cleanText text)))

/-- ASCII lowercase letters (the transliteration tables emit only these). -/
def isAsciiLower (c : Char) : Bool := 97 ≤ c.toNat && c.toNat ≤ 122

/-- A character covered by the transliteration tables (or the halant,
which the scan drops). -/
def supportedDevanagari (c : Char) : Bool :=
  (vowelMap c).isSome || (consMap c).isSome || (matraMap c).isSome ||
  (markMap c).isSome || c = halant

/-- "Contains a Cyrillic letter or CJK ideograph up to case":  the
lowercased character is a Cyrillic letter or a CJK ideograph. -/
def badScriptChar (c : Char) : Bool :=
  isCyrillicLetter (pyLower c) || isCJK (pyLower c)

theorem charOfNat_toNat {n : Nat} (h : n < 0xD800) : (Char.ofNat n).toNat = n := by
  unfold Char.ofNat
  rw [dif_pos (Or.inl h)]
  simp [Char.ofNatAux, Char.toNat, UInt32.toNat, BitVec.toNat_ofNatLt]

theorem pyLower_toNat (c : Char) : (pyLower c).toNat =
    if 65 ≤ c.toNat ∧ c.toNat ≤ 90 then c.toNat + 32
    else if 0x410 ≤ c.toNat ∧ c.toNat ≤ 0x42F then c.toNat + 0x20
    else if 0x400 ≤ c.toNat ∧ c.toNat ≤ 0x40F then c.toNat + 0x50
    else c.toNat := by
  unfold pyLower
  split_ifs with h1 h2 h3 <;>
    first
      | rfl
      | rw [charOfNat_toNat (by omega)]

theorem badScriptChar_of_cyr_or_cjk {c : Char}
    (h : isCyrillicLetter c = true ∨ isCJK c = true) : badScriptChar c = true := by
  have hlow := pyLower_toNat c
  unfold badScriptChar isCyrillicLetter isCJK at *
  rcases h with h | h <;>
    · simp only [Bool.or_eq_true, Bool.and_eq_true, decide_eq_true_eq] at h ⊢
      split_ifs at hlow <;> omega

theorem badScriptChar_ge (c : Char) (h : badScriptChar c = true) : 0x400 ≤ c.toNat := by
  have hlow := pyLower_toNat c
  unfold badScriptChar isCyrillicLetter isCJK at h
  simp only [Bool.or_eq_true, Bool.and_eq_true, decide_eq_true_eq] at h
  split_ifs at hlow <;> omega

theorem badScriptChar_not_space {c : Char} (h : badScriptChar c = true) :
    pyIsSpace c = false := by
  have := badScriptChar_ge c h
  unfold pyIsSpace
  simp only [Bool.or_eq_false_iff, decide_eq_false_iff_not]
  omega

theorem badScriptChar_lower {c : Char} (h : badScriptChar c = true) :
    badScriptChar (pyLower c) = true := by
  have hlow := pyLower_toNat c
  have hlow2 := pyLower_toNat (pyLower c)
  unfold badScriptChar isCyrillicLetter isCJK at h ⊢
  simp only [Bool.or_eq_true, Bool.and_eq_true, decide_eq_true_eq] at h ⊢
  split_ifs at hlow <;> split_ifs at hlow2 <;> omega

theorem badScriptChar_not_devanagari {c : Char} (h : badScriptChar c = true) :
    isDevanagariCode c = false := by
  have hlow := pyLower_toNat c
  unfold badScriptChar isCyrillicLetter isCJK at h
  unfold isDevanagariCode
  simp only [Bool.or_eq_true, Bool.and_eq_true, decide_eq_true_eq] at h
  simp only [Bool.and_eq_false_iff, decide_eq_false_iff_not]
  split_ifs at hlow <;> omega

theorem badScriptChar_alpha_not_latin {c : Char} (h : badScriptChar c = true) :
    pyIsAlpha c = true ∧ isAsciiLatin c = false := by
  have hlow := pyLower_toNat c
  unfold badScriptChar at h
  unfold pyIsAlpha isAsciiLatin isDevanagariLetter isCyrillicLetter isCJK at *
  simp only [Bool.or_eq_true, Bool.and_eq_true, decide_eq_true_eq] at h ⊢
  constructor
  · split_ifs at hlow <;> omega
  · simp only [Bool.or_eq_false_iff, Bool.and_eq_false_iff, decide_eq_false_iff_not]
    split_ifs at hlow <;> omega

theorem find?_table_mem {table : List (Char × String)} {c : Char} {v : String}
    (h : (table.find? (fun p => p.1 = c)).map Prod.snd = some v) :
    ∃ p ∈ table, p.1 = c ∧ p.2 = v := by
  cases hf : table.find? (fun p => p.1 = c) with
  | none => rw [hf] at h; cases h
  | some p =>
    rw [hf] at h
    refine ⟨p, List.mem_of_find?_eq_some hf, ?_, by
      have := h.symm
      simpa using this.symm⟩
    have := List.find?_some hf
    simpa using this

theorem supportedDevanagari_code {c : Char} (h : supportedDevanagari c = true) :
    isDevanagariCode c = true := by
  have hv : ∀ p ∈ vowelsTable, isDevanagariCode p.1 = true := by decide
  have hc : ∀ p ∈ consTable, isDevanagariCode p.1 = true := by decide
  have hm : ∀ p ∈ matrasTable, isDevanagariCode p.1 = true := by decide
  have hk : ∀ p ∈ marksTable, isDevanagariCode p.1 = true := by decide
  unfold supportedDevanagari at h
  simp only [Bool.or_eq_true, Option.isSome_iff_exists, decide_eq_true_eq] at h
  rcases h with ((((⟨v, hvv⟩ | ⟨v, hvv⟩) | ⟨v, hvv⟩) | ⟨v, hvv⟩) | rfl)
  · obtain ⟨p, hp, hpc, _⟩ := find?_table_mem hvv
    exact hpc ▸ hv p hp
  · obtain ⟨p, hp, hpc, _⟩ := find?_table_mem hvv
    exact hpc ▸ hc p hp
  · obtain ⟨p, hp, hpc, _⟩ := find?_table_mem hvv
    exact hpc ▸ hm p hp
  · obtain ⟨p, hp, hpc, _⟩ := find?_table_mem hvv
    exact hpc ▸ hk p hp
  · decide

theorem badScriptChar_not_supported {c : Char} (h : badScriptChar c = true) :
    supportedDevanagari c = false := by
  by_contra hs
  have := supportedDevanagari_code (c := c) (by
    cases hx : supportedDevanagari c
    · exact absurd hx hs
    · rfl)
  rw [badScriptChar_not_devanagari h] at this
  cases this

theorem vowelMap_chars {c : Char} {v : String} (h : vowelMap c = some v) :
    ∀ ch ∈ v.data, isAsciiLower ch = true := by
  have hfact : ∀ p ∈ vowelsTable, ∀ ch ∈ p.2.data, isAsciiLower ch = true := by decide
  obtain ⟨p, hp, _, hpv⟩ := find?_table_mem h
  exact hpv ▸ hfact p hp

theorem consMap_chars {c : Char} {v : String} (h : consMap c = some v) :
    ∀ ch ∈ v.data, isAsciiLower ch = true := by
  have hfact : ∀ p ∈ consTable, ∀ ch ∈ p.2.data, isAsciiLower ch = true := by decide
  obtain ⟨p, hp, _, hpv⟩ := find?_table_mem h
  exact hpv ▸ hfact p hp

theorem matraMap_chars {c : Char} {v : String} (h : matraMap c = some v) :
    ∀ ch ∈ v.data, isAsciiLower ch = true := by
  have hfact : ∀ p ∈ matrasTable, ∀ ch ∈ p.2.data, isAsciiLower ch = true := by decide
  obtain ⟨p, hp, _, hpv⟩ := find?_table_mem h
  exact hpv ▸ hfact p hp

theorem markMap_chars {c : Char} {v : String} (h : markMap c = some v) :
    ∀ ch ∈ v.data, isAsciiLower ch = true := by
  have hfact : ∀ p ∈ marksTable, ∀ ch ∈ p.2.data, isAsciiLower ch = true := by decide
  obtain ⟨p, hp, _, hpv⟩ := find?_table_mem h
  exact hpv ▸ hfact p hp

/-- A character the script filter always accepts: an ASCII lowercase
letter or whitespace. -/
def goodChar (ch : Char) : Prop := isAsciiLower ch = true ∨ pyIsSpace ch = true

theorem goodStr_append {s t : String} (hs : ∀ ch ∈ s.data, goodChar ch)
    (ht : ∀ ch ∈ t.data, goodChar ch) : ∀ ch ∈ (s ++ t).data, goodChar ch := by
  intro ch hch
  rw [String.data_append] at hch
  rcases List.mem_append.mp hch with hc | hc
  · exact hs ch hc
  · exact ht ch hc

theorem goodStr_a : ∀ ch ∈ ("a" : String).data, goodChar ch := by
  intro ch hch
  left
  rcases List.mem_singleton.mp hch with rfl
  decide

/-- The passthrough piece of the scan: a single unconsumed character. -/
theorem singleton_data (c : Char) : (String.singleton c).data = [c] := rfl

/-- Every piece emitted by the transliteration scan over supported
Devanagari (plus whitespace) consists of ASCII lowercase letters and
whitespace only. -/
theorem translitAux_chars {l : List Char}
    (h : ∀ c ∈ l, supportedDevanagari c = true ∨ pyIsSpace c = true) :
    ∀ piece ∈ translitAux l, ∀ ch ∈ piece.data, goodChar ch := by
  induction l using translitAux.induct with
  | case1 =>
    intro piece hp
    simp [translitAux] at hp
  | case2 c v hv =>
    intro piece hp
    simp [translitAux, hv] at hp
    subst hp
    exact fun ch hch => Or.inl (vowelMap_chars hv ch hch)
  | case3 c hvn v hcs =>
    intro piece hp
    simp [translitAux, hvn, hcs] at hp
    subst hp
    exact goodStr_append (fun ch hch => Or.inl (consMap_chars hcs ch hch)) goodStr_a
  | case4 c hvn hcn v hms =>
    intro piece hp
    simp [translitAux, hvn, hcn, hms] at hp
    subst hp
    exact fun ch hch => Or.inl (matraMap_chars hms ch hch)
  | case5 c hvn hcn hmn v hks =>
    intro piece hp
    simp [translitAux, hvn, hcn, hmn, hks] at hp
    subst hp
    exact fun ch hch => Or.inl (markMap_chars hks ch hch)
  | case6 hvn hcn hmn hkn =>
    intro piece hp
    simp [translitAux, hvn, hcn, hmn, hkn] at hp
  | case7 c hvn hcn hmn hkn hne =>
    intro piece hp
    simp [translitAux, hvn, hcn, hmn, hkn, hne] at hp
    subst hp
    intro ch hch
    rw [singleton_data] at hch
    have hcc : ch = c := List.mem_singleton.mp hch
    subst hcc
    have hsup : supportedDevanagari ch = false := by
      unfold supportedDevanagari
      rw [hvn, hcn, hmn, hkn]
      simp [hne]
    rcases h ch (List.mem_singleton.mpr rfl) with hs | hs
    · rw [hsup] at hs
      cases hs
    · exact Or.inr hs
  | case8 c nxt rest2 v hv ih =>
    intro piece hp
    simp [translitAux, hv] at hp
    rcases hp with rfl | hp
    · exact fun ch hch => Or.inl (vowelMap_chars hv ch hch)
    · exact ih (fun d hd => h d (List.mem_cons_of_mem _ hd)) piece hp
  | case9 c rest2 hvn v hcs ih =>
    intro piece hp
    simp [translitAux, hvn, hcs] at hp
    rcases hp with rfl | hp
    · exact fun ch hch => Or.inl (consMap_chars hcs ch hch)
    · refine ih (fun d hd => h d ?_) piece hp
      exact List.mem_cons_of_mem _ (List.mem_cons_of_mem _ hd)
  | case10 c nxt rest2 hvn v hcs hne m hms ih =>
    intro piece hp
    simp [translitAux, hvn, hcs, hne, hms] at hp
    rcases hp with rfl | hp
    · exact goodStr_append (fun ch hch => Or.inl (consMap_chars hcs ch hch))
        (fun ch hch => Or.inl (matraMap_chars hms ch hch))
    · refine ih (fun d hd => h d ?_) piece hp
      exact List.mem_cons_of_mem _ (List.mem_cons_of_mem _ hd)
  | case11 c nxt rest2 hvn v hcs hne hmn m hks ih =>
    intro piece hp
    simp [translitAux, hvn, hcs, hne, hmn, hks] at hp
    rcases hp with rfl | hp
    · exact goodStr_append
        (goodStr_append (fun ch hch => Or.inl (consMap_chars hcs ch hch)) goodStr_a)
        (fun ch hch => Or.inl (markMap_chars hks ch hch))
    · refine ih (fun d hd => h d ?_) piece hp
      exact List.mem_cons_of_mem _ (List.mem_cons_of_mem _ hd)
  | case12 c nxt rest2 hvn v hcs hne hmn hkn ih =>
    intro piece hp
    simp [translitAux, hvn, hcs, hne, hmn, hkn] at hp
    rcases hp with rfl | hp
    · exact goodStr_append (fun ch hch => Or.inl (consMap_chars hcs ch hch)) goodStr_a
    · exact ih (fun d hd => h d (List.mem_cons_of_mem _ hd)) piece hp
  | case13 c nxt rest2 hvn hcn v hms ih =>
    intro piece hp
    simp [translitAux, hvn, hcn, hms] at hp
    rcases hp with rfl | hp
    · exact fun ch hch => Or.inl (matraMap_chars hms ch hch)
    · exact ih (fun d hd => h d (List.mem_cons_of_mem _ hd)) piece hp
  | case14 c nxt rest2 hvn hcn hmn v hks ih =>
    intro piece hp
    simp [translitAux, hvn, hcn, hmn, hks] at hp
    rcases hp with rfl | hp
    · exact fun ch hch => Or.inl (markMap_chars hks ch hch)
    · exact ih (fun d hd => h d (List.mem_cons_of_mem _ hd)) piece hp
  | case15 nxt rest2 hvn hcn hmn hkn ih =>
    intro piece hp
    simp [translitAux, hvn, hcn, hmn, hkn] at hp
    exact ih (fun d hd => h d (List.mem_cons_of_mem _ hd)) piece hp
  | case16 c nxt rest2 hvn hcn hmn hkn hne ih =>
    intro piece hp
    simp [translitAux, hvn, hcn, hmn, hkn, hne] at hp
    rcases hp with rfl | hp
    · intro ch hch
      rw [singleton_data] at hch
      have hcc : ch = c := List.mem_singleton.mp hch
      subst hcc
      have hsup : supportedDevanagari ch = false := by
        unfold supportedDevanagari
        rw [hvn, hcn, hmn, hkn]
        simp [hne]
      rcases h ch (List.mem_cons_self _ _) with hs | hs
      · rw [hsup] at hs
        cases hs
      · exact Or.inr hs
    · exact ih (fun d hd => h d (List.mem_cons_of_mem _ hd)) piece hp

theorem mem_concatAll {pieces : List String} {piece : String} {c : Char}
    (hp : piece ∈ pieces) (hc : c ∈ piece.data) : c ∈ (concatAll pieces).data := by
  induction pieces with
  | nil => cases hp
  | cons p rest ih =>
    show c ∈ (p ++ concatAll rest).data
    rw [String.data_append]
    rcases List.mem_cons.mp hp with rfl | hp
    · exact List.mem_append_left _ hc
    · exact List.mem_append_right _ (ih hp)

theorem concatAll_chars {pieces : List String} {c : Char}
    (h : c ∈ (concatAll pieces).data) : ∃ piece ∈ pieces, c ∈ piece.data := by
  induction pieces with
  | nil => cases h
  | cons p rest ih =>
    rw [show concatAll (p :: rest) = p ++ concatAll rest from rfl, String.data_append] at h
    rcases List.mem_append.mp h with hc | hc
    · exact ⟨p, List.mem_cons_self _ _, hc⟩
    · obtain ⟨piece, hmem, hcc⟩ := ih hc
      exact ⟨piece, List.mem_cons_of_mem _ hmem, hcc⟩

theorem not_supported_parts {c : Char} (h : supportedDevanagari c = false) :
    vowelMap c = none ∧ consMap c = none ∧ matraMap c = none ∧ markMap c = none ∧
    c ≠ halant := by
  unfold supportedDevanagari at h
  simp only [Bool.or_eq_false_iff, decide_eq_false_iff_not] at h
  refine ⟨?_, ?_, ?_, ?_, h.2⟩
  · exact Option.not_isSome_iff_eq_none.mp (by simp [h.1.1.1.1])
  · exact Option.not_isSome_iff_eq_none.mp (by simp [h.1.1.1.2])
  · exact Option.not_isSome_iff_eq_none.mp (by simp [h.1.1.2])
  · exact Option.not_isSome_iff_eq_none.mp (by simp [h.1.2])

theorem translitAux_passthrough {l : List Char} {c : Char}
    (hc : c ∈ l) (hvn : vowelMap c = none) (hcn : consMap c = none)
    (hmn : matraMap c = none) (hkn : markMap c = none) (hne : c ≠ halant) :
    ∃ piece ∈ translitAux l, c ∈ piece.data := by
  induction l using translitAux.induct with
  | case1 => cases hc
  | case2 d v hv =>
    rcases List.mem_singleton.mp hc with rfl
    rw [hv] at hvn
    cases hvn
  | case3 d hdvn v hcs =>
    rcases List.mem_singleton.mp hc with rfl
    rw [hcs] at hcn
    cases hcn
  | case4 d hdvn hdcn v hms =>
    rcases List.mem_singleton.mp hc with rfl
    rw [hms] at hmn
    cases hmn
  | case5 d hdvn hdcn hdmn v hks =>
    rcases List.mem_singleton.mp hc with rfl
    rw [hks] at hkn
    cases hkn
  | case6 hdvn hdcn hdmn hdkn =>
    rcases List.mem_singleton.mp hc with rfl
    exact absurd rfl hne
  | case7 d hdvn hdcn hdmn hdkn hdne =>
    rcases List.mem_singleton.mp hc with rfl
    refine ⟨String.singleton c, ?_, ?_⟩
    · simp [translitAux, hdvn, hdcn, hdmn, hdkn, hdne]
    · rw [singleton_data]
      exact List.mem_singleton.mpr rfl
  | case8 d nxt rest2 v hv ih =>
    rcases List.mem_cons.mp hc with rfl | hc2
    · rw [hv] at hvn
      cases hvn
    · obtain ⟨piece, hmem, hcc⟩ := ih hc2
      refine ⟨piece, ?_, hcc⟩
      simp [translitAux, hv]
      exact Or.inr hmem
  | case9 d rest2 hdvn v hcs ih =>
    rcases List.mem_cons.mp hc with rfl | hc2
    · rw [hcs] at hcn
      cases hcn
    · rcases List.mem_cons.mp hc2 with rfl | hc3
      · exact absurd rfl hne
      · obtain ⟨piece, hmem, hcc⟩ := ih hc3
        refine ⟨piece, ?_, hcc⟩
        simp [translitAux, hdvn, hcs]
        exact Or.inr hmem
  | case10 d nxt rest2 hdvn v hcs hdne m hms ih =>
    rcases List.mem_cons.mp hc with rfl | hc2
    · rw [hcs] at hcn
      cases hcn
    · rcases List.mem_cons.mp hc2 with rfl | hc3
      · rw [hms] at hmn
        cases hmn
      · obtain ⟨piece, hmem, hcc⟩ := ih hc3
        refine ⟨piece, ?_, hcc⟩
        simp [translitAux, hdvn, hcs, hdne, hms]
        exact Or.inr hmem
  | case11 d nxt rest2 hdvn v hcs hdne hdmn m hks ih =>
    rcases List.mem_cons.mp hc with rfl | hc2
    · rw [hcs] at hcn
      cases hcn
    · rcases List.mem_cons.mp hc2 with rfl | hc3
      · rw [hks] at hkn
        cases hkn
      · obtain ⟨piece, hmem, hcc⟩ := ih hc3
        refine ⟨piece, ?_, hcc⟩
        simp [translitAux, hdvn, hcs, hdne, hdmn, hks]
        exact Or.inr hmem
  | case12 d nxt rest2 hdvn v hcs hdne hdmn hdkn ih =>
    rcases List.mem_cons.mp hc with rfl | hc2
    · rw [hcs] at hcn
      cases hcn
    · obtain ⟨piece, hmem, hcc⟩ := ih hc2
      refine ⟨piece, ?_, hcc⟩
      simp [translitAux, hdvn, hcs, hdne, hdmn, hdkn]
      exact Or.inr hmem
  | case13 d nxt rest2 hdvn hdcn v hms ih =>
    rcases List.mem_cons.mp hc with rfl | hc2
    · rw [hms] at hmn
      cases hmn
    · obtain ⟨piece, hmem, hcc⟩ := ih hc2
      refine ⟨piece, ?_, hcc⟩
      simp [translitAux, hdvn, hdcn, hms]
      exact Or.inr hmem
  | case14 d nxt rest2 hdvn hdcn hdmn v hks ih =>
    rcases List.mem_cons.mp hc with rfl | hc2
    · rw [hks] at hkn
      cases hkn
    · obtain ⟨piece, hmem, hcc⟩ := ih hc2
      refine ⟨piece, ?_, hcc⟩
      simp [translitAux, hdvn, hdcn, hdmn, hks]
      exact Or.inr hmem
  | case15 nxt rest2 hdvn hdcn hdmn hdkn ih =>
    rcases List.mem_cons.mp hc with rfl | hc2
    · exact absurd rfl hne
    · obtain ⟨piece, hmem, hcc⟩ := ih hc2
      refine ⟨piece, ?_, hcc⟩
      simpa [translitAux, hdvn, hdcn, hdmn, hdkn] using hmem
  | case16 d nxt rest2 hdvn hdcn hdmn hdkn hdne ih =>
    rcases List.mem_cons.mp hc with rfl | hc2
    · refine ⟨String.singleton c, ?_, ?_⟩
      · simp [translitAux, hdvn, hdcn, hdmn, hdkn, hdne]
      · rw [singleton_data]
        exact List.mem_singleton.mpr rfl
    · obtain ⟨piece, hmem, hcc⟩ := ih hc2
      refine ⟨piece, ?_, hcc⟩
      simp [translitAux, hdvn, hdcn, hdmn, hdkn, hdne]
      exact Or.inr hmem

theorem toHinglish_chars {s : String}
    (h : ∀ c ∈ s.data, supportedDevanagari c = true ∨ pyIsSpace c = true) :
    ∀ ch ∈ (toHinglish s).data, goodChar ch := by
  unfold toHinglish
  split_ifs with h0 hdev
  · intro ch hch
    exact absurd hch (List.not_mem_nil ch)
  · intro ch hch
    obtain ⟨piece, hp, hcc⟩ := concatAll_chars hch
    exact translitAux_chars h piece hp ch hcc
  · intro ch hch
    rcases h ch hch with hs | hs
    · exfalso
      have hcode := supportedDevanagari_code hs
      exact hdev (List.any_eq_true.mpr ⟨ch, hch, hcode⟩)
    · exact Or.inr hs

theorem toHinglish_kept {s : String} {c : Char} (hc : c ∈ s.data)
    (hbad : badScriptChar c = true) : c ∈ (toHinglish s).data := by
  unfold toHinglish
  split_ifs with h0 hdev
  · exact absurd hc (h0 ▸ List.not_mem_nil c)
  · have hsup := not_supported_parts (badScriptChar_not_supported hbad)
    obtain ⟨piece, hp, hcc⟩ :=
      translitAux_passthrough hc hsup.1 hsup.2.1 hsup.2.2.1 hsup.2.2.2.1 hsup.2.2.2.2
    exact mem_concatAll hp hcc
  · exact hc

theorem chars_joinSp {ws : List String} {c : Char} (h : c ∈ (joinSp ws).data) :
    (∃ w ∈ ws, c ∈ w.data) ∨ c = ' ' := by
  induction ws with
  | nil => cases h
  | cons w ws ih =>
    cases ws with
    | nil =>
      exact Or.inl ⟨w, List.mem_singleton.mpr rfl, h⟩
    | cons w2 ws2 =>
      rw [show joinSp (w :: w2 :: ws2) = w ++ " " ++ joinSp (w2 :: ws2) from rfl,
        String.data_append, String.data_append] at h
      rcases List.mem_append.mp h with hl | hr
      · rcases List.mem_append.mp hl with hw | hsp
        · exact Or.inl ⟨w, List.mem_cons_self _ _, hw⟩
        · exact Or.inr (List.mem_singleton.mp hsp)
      · rcases ih hr with ⟨v, hv, hcc⟩ | hsp
        · exact Or.inl ⟨v, List.mem_cons_of_mem _ hv, hcc⟩
        · exact Or.inr hsp

theorem mem_joinSp_of_mem {ws : List String} {w : String} {c : Char}
    (hw : w ∈ ws) (hc : c ∈ w.data) : c ∈ (joinSp ws).data := by
  induction ws with
  | nil => cases hw
  | cons v ws ih =>
    cases ws with
    | nil =>
      rcases List.mem_singleton.mp hw with rfl
      exact hc
    | cons w2 ws2 =>
      rw [show joinSp (v :: w2 :: ws2) = v ++ " " ++ joinSp (w2 :: ws2) from rfl,
        String.data_append, String.data_append]
      rcases List.mem_cons.mp hw with rfl | hw2
      · exact List.mem_append_left _ (List.mem_append_left _ hc)
      · exact List.mem_append_right _ (ih hw2)

theorem wordsOfAux_acc_mem {l acc : List Char} {c : Char} (hc : c ∈ acc) :
    ∃ w ∈ wordsOfAux l acc, c ∈ w := by
  induction l generalizing acc with
  | nil =>
    simp only [wordsOfAux]
    rw [if_neg (by
      intro he
      rw [List.isEmpty_iff] at he
      rw [he] at hc
      cases hc)]
    exact ⟨acc.reverse, List.mem_singleton.mpr rfl, List.mem_reverse.mpr hc⟩
  | cons x rest ih =>
    simp only [wordsOfAux]
    split_ifs with hsp hacc
    · rw [List.isEmpty_iff] at hacc
      rw [hacc] at hc
      cases hc
    · exact ⟨acc.reverse, List.mem_cons_self _ _, List.mem_reverse.mpr hc⟩
    · obtain ⟨w, hw, hcc⟩ := @ih (x :: acc) (List.mem_cons_of_mem _ hc)
      exact ⟨w, hw, hcc⟩

theorem wordsOfAux_complete {l acc : List Char} {c : Char} (hc : c ∈ l)
    (hns : pyIsSpace c = false) : ∃ w ∈ wordsOfAux l acc, c ∈ w := by
  induction l generalizing acc with
  | nil => cases hc
  | cons x rest ih =>
    simp only [wordsOfAux]
    rcases List.mem_cons.mp hc with rfl | hc2
    · rw [if_neg (by simp [hns])]
      obtain ⟨w, hw, hcc⟩ := @wordsOfAux_acc_mem rest (c :: acc) c
        (List.mem_cons_self _ _)
      exact ⟨w, hw, hcc⟩
    · split_ifs with hsp hacc
      · exact ih hc2
      · obtain ⟨w, hw, hcc⟩ := @ih [] hc2
        exact ⟨w, List.mem_cons_of_mem _ hw, hcc⟩
      · exact ih hc2

theorem wordsOf_complete {s : String} {c : Char} (hc : c ∈ s.data)
    (hns : pyIsSpace c = false) : ∃ w ∈ wordsOf s, c ∈ w.data := by
  obtain ⟨w, hw, hcc⟩ := @wordsOfAux_complete _ [] _ hc hns
  exact ⟨⟨w⟩, List.mem_map.mpr ⟨w, hw, rfl⟩, hcc⟩

theorem cleanText_chars {s : String} :
    ∀ c ∈ (cleanText (some s)).data, c ∈ s.data ∨ c = ' ' := by
  by_cases hlen : (wordsOf s).length < 2
  · rw [cleanText_small hlen]
    intro c hc
    rcases chars_joinSp hc with ⟨w, hw, hcc⟩ | hsp
    · exact Or.inl ((wordsOf_sound hw).2 c hcc).1
    · exact Or.inr hsp
  · rw [cleanText_big (not_lt.mp hlen)]
    intro c hc
    rcases chars_joinSp hc with ⟨w, hw, hcc⟩ | hsp
    · have hw0 : w ∈ wordsOf s := mem_of_mem_collapseLoopF (mem_of_mem_dedupAdj hw)
      exact Or.inl ((wordsOf_sound hw0).2 c hcc).1
    · exact Or.inr hsp

theorem cleanText_kept {s : String} {c : Char} (hc : c ∈ s.data)
    (hbad : badScriptChar c = true) :
    ∃ c2 ∈ (cleanText (some s)).data, badScriptChar c2 = true := by
  obtain ⟨w, hw, hcc⟩ := wordsOf_complete hc (badScriptChar_not_space hbad)
  by_cases hlen : (wordsOf s).length < 2
  · rw [cleanText_small hlen]
    exact ⟨c, mem_joinSp_of_mem hw hcc, hbad⟩
  · rw [cleanText_big (not_lt.mp hlen)]
    have hwr : w ∈ collapseLoopF ((wordsOf s).length + 1)
        (rangeDown (min 12 ((wordsOf s).length / 2))) (wordsOf s) :=
      mem_collapseLoopF_of_mem hw
    obtain ⟨v, hv, hlv⟩ := dedupAdj_lower_mem hwr
    have h1 : pyLower c ∈ v.data.map pyLower := by
      have hvd : v.data.map pyLower = w.data.map pyLower := congrArg String.data hlv
      rw [hvd]
      exact List.mem_map_of_mem pyLower hcc
    obtain ⟨c2, hc2, hpc2⟩ := List.mem_map.mp h1
    refine ⟨c2, mem_joinSp_of_mem hv hc2, ?_⟩
    unfold badScriptChar at hbad ⊢
    rw [hpc2]
    exact hbad

theorem goodChar_allowed {c : Char} (h : goodChar c) :
    (!pyIsAlpha c || isAsciiLatin c) = true := by
  rcases h with h | h
  · unfold isAsciiLower at h
    unfold isAsciiLatin
    simp only [Bool.or_eq_true, Bool.and_eq_true, decide_eq_true_eq] at h ⊢
    omega
  · unfold pyIsSpace at h
    unfold pyIsAlpha isAsciiLatin isDevanagariLetter isCyrillicLetter isCJK
    simp only [Bool.or_eq_true, Bool.and_eq_true, decide_eq_true_eq] at h
    simp only [Bool.or_eq_true, Bool.not_eq_true', Bool.or_eq_false_iff,
      Bool.and_eq_false_iff, decide_eq_false_iff_not, decide_eq_true_eq]
    left
    refine ⟨⟨⟨⟨?_, ?_⟩, ?_⟩, ?_⟩, ?_⟩ <;> omega

theorem goodChar_alpha_latin {c : Char} (h : goodChar c) (ha : pyIsAlpha c = true) :
    isAsciiLatin c = true := by
  have := goodChar_allowed h
  rw [ha] at this
  simpa using this

/-- C6 counterexample: "ॐ" (U+0950) is a Devanagari letter, so every
alphabetic character of the input is Devanagari; but it is not covered by
the transliteration tables, passes through unchanged, fails the
allowed-script check, and `_prepare_candidate` returns "" — not a
non-empty romanized result. -/
theorem prepareCandidate_devanagari_cex :
    (∀ c ∈ ("ॐ" : String).data, pyIsAlpha c = true → isDevanagariCode c = true) ∧
    ("ॐ" : String).data ≠ [] ∧
    prepareCandidate (some "ॐ") = "" := by
  refine ⟨by decide, by decide, by decide⟩

/-- C6 (amended): (a) for every candidate whose characters are all
supported Devanagari (the transliteration tables' vowels, consonants,
matras, marks or the halant) or whitespace, the transliterated cleaned
text passes the allowed-script check, and every alphabetic character of
the `_prepare_candidate` result is an ASCII Latin letter; (b) a candidate
containing any Cyrillic letter or CJK ideograph yields the empty string. -/
theorem prepareCandidate_script (s : String) :
    ((∀ c ∈ s.data, supportedDevanagari c = true ∨ pyIsSpace c = true) →
      isAllowedScriptText (cleanText (some (toHinglish (cleanText (some s))))) = true ∧
      ∀ c ∈ (prepareCandidate (some s)).data, pyIsAlpha c = true → isAsciiLatin c = true) ∧
    ((∃ c ∈ s.data, isCyrillicLetter c = true ∨ isCJK c = true) →
      prepareCandidate (some s) = "") := by
  constructor
  · intro h
    have h1 : ∀ c ∈ (cleanText (some s)).data,
        supportedDevanagari c = true ∨ pyIsSpace c = true := by
      intro c hc
      rcases cleanText_chars c hc with hin | rfl
      · exact h c hin
      · right
        decide
    have h2 : ∀ ch ∈ (toHinglish (cleanText (some s))).data, goodChar ch :=
      toHinglish_chars h1
    have h3 : ∀ ch ∈ (cleanText (some (toHinglish (cleanText (some s))))).data,
        goodChar ch := by
      intro ch hch
      rcases cleanText_chars ch hch with hin | rfl
      · exact h2 ch hin
      · right
        decide
    have hallowed : isAllowedScriptText
        (cleanText (some (toHinglish (cleanText (some s))))) = true := by
      unfold isAllowedScriptText
      rw [List.all_eq_true]
      intro c hc
      exact goodChar_allowed (h3 c hc)
    refine ⟨hallowed, ?_⟩
    unfold prepareCandidate
    split_ifs with hg1 hg2 hg3 hg4
    · intro c hc
      exact absurd hc (List.not_mem_nil c)
    · intro c hc
      exact absurd hc (List.not_mem_nil c)
    · intro c hc
      exact absurd hc (List.not_mem_nil c)
    · intro c hc
      exact absurd hc (List.not_mem_nil c)
    · intro c hc ha
      exact goodChar_alpha_latin (h3 c hc) ha
  · rintro ⟨c, hcmem, hcyr⟩
    have hbad : badScriptChar c = true := badScriptChar_of_cyr_or_cjk hcyr
    unfold prepareCandidate
    split_ifs with hg1 hg2 hg3 hg4
    · rfl
    · rfl
    · rfl
    · rfl
    · exfalso
      obtain ⟨c1, hc1, hb1⟩ := cleanText_kept hcmem hbad
      have hc2 : c1 ∈ (toHinglish (cleanText (some s))).data := toHinglish_kept hc1 hb1
      obtain ⟨c3, hc3, hb3⟩ := cleanText_kept hc2 hb1
      have halpha := badScriptChar_alpha_not_latin hb3
      have hallow : isAllowedScriptText
          (cleanText (some (toHinglish (cleanText (some s))))) = true := by
        rcases hx : isAllowedScriptText
            (cleanText (some (toHinglish (cleanText (some s))))) with _ | _
        · rw [hx] at hg4
          simp at hg4
        · rfl
      unfold isAllowedScriptText at hallow
      rw [List.all_eq_true] at hallow
      have := hallow c3 hc3
      rw [halpha.1, halpha.2] at this
      simp at this

/-- Witness for `prepareCandidate_script`: part (a) at the Devanagari
input "नमस्ते" (romanized to "namaste"), part (b) at the Cyrillic input
"привет". -/
theorem prepareCandidate_script_witness :
    prepareCandidate (some "नमस्ते") = "namaste" ∧
    (∀ c ∈ (prepareCandidate (some "नमस्ते")).data, pyIsAlpha c = true →
      isAsciiLatin c = true) ∧
    prepareCandidate (some "привет") = "" :=
  ⟨by decide, ((prepareCandidate_script "नमस्ते").1 (by decide)).2,
    (prepareCandidate_script "привет").2 ⟨'п', by decide, by decide⟩⟩

/-! ## TranscriptionService.transcribe (lines 26–66) -/

/-- `Path(file_name).suffix`: the extension of the final path component,
empty when there is no dot, the dot is leading, or the dot is trailing. -/
def pySuffix (name : String) : String :=
  let base := (name.data.reverse.takeWhile (fun c => c ≠ '/')).reverse
  let ext := base.reverse.takeWhile (fun c => c ≠ '.')
  if ext.length = 0 ∨ ext.length + 1 ≥ base.length then "" else ⟨'.' :: ext.reverse⟩

/-- `VIDEO_CONTAINER_EXTENSIONS`. -/
def videoContainerExts : List String :=
  [".webm", ".mp4", ".mkv", ".mov", ".avi", ".mpeg", ".mpg"]

/-- `ALLOWED_LANGUAGE_CODES`. -/
def allowedLanguageCodes : List String := ["en", "hi"]

/-- The externally-determined outcomes of one `transcribe` call.  Each
`Option` is `none` when the corresponding external call raises (the code
catches the exception where shown); the temp-file write is the one step
inside the outer `try` that can raise past the inner guards. -/
structure TranscribeEnv where
  whisperModelAvailable : Bool
  whisperOutcome : Option (List String × String)
  openaiConfigured : Bool
  openaiOutcome : Option String
  tempWriteOk : Bool

/-- `TranscriptionService._transcribe_with_faster_whisper` (lines
172–198): join the non-empty stripped segment texts, reject disallowed
detected languages, return "" on any exception. -/
def transcribeWithFasterWhisper (env : TranscribeEnv) : String :=
  if !env.whisperModelAvailable then ""
  else
    match env.whisperOutcome with
    | none => ""
    | some (segments, language) =>
      let detected := lowerStr (pyStrip language)
      if detected ≠ "" ∧ detected ∉ allowedLanguageCodes then ""
      else cleanText (some (pyStrip (joinSp ((segments.map pyStrip).filter (· ≠ "")))))

/-- `TranscriptionService._transcribe_with_openai` (lines 149–170):
clean the returned text, return "" when unconfigured or on exception. -/
def transcribeWithOpenai (env : TranscribeEnv) : String :=
  if !env.openaiConfigured then ""
  else
    match env.openaiOutcome with
    | none => ""
    | some raw => cleanText (some raw)

/-- The longest consecutive repeat count of `_is_low_quality`. -/
def longestRunAux : String → Nat → Nat → List String → Nat
  | _, cur, best, [] => max best cur
  | prev, cur, best, w :: rest =>
    if w = prev then longestRunAux w (cur + 1) (max best (cur + 1)) rest
    else longestRunAux w 1 (max best cur) rest

/-- The longest consecutive repeat count of `_is_low_quality`. -/
def longestRun : List String → Nat
  | [] => 1
  | w :: rest => longestRunAux w 1 1 rest

/-- `TranscriptionService._is_low_quality`: fewer than 3 words, or a low
case-insensitive uniqueness ratio on 20+ words, or a single word repeated
6+ times consecutively.  `unique_ratio < 0.22` on exact rationals is
`100 * unique < 22 * total`. -/
def isLowQuality (text : String) : Bool :=
  let words := wordsOf text
  if words.length < 3 then true
  else
    let lowerWords := words.map lowerStr
    if words.length ≥ 20 ∧ 100 * lowerWords.dedup.length < 22 * lowerWords.length then true
    else longestRun lowerWords ≥ 6

/-- The per-candidate heuristic score of `_pick_best_transcript`
(lines 136–142). -/
def candScore (source : String) (text : String) : ℚ :=
  (if source = "openai" then 0.05 else 0.03) +
    (min (wordsOf text).length 60 : ℚ) / 600 -
    (if isLowQuality text then 0.25 else 0)

/-- The scan of `_pick_best_transcript`. -/
def pickBestAux : List (String × String) → ℚ → String → String
  | [], _, bestText => bestText
  | (source, text) :: rest, bestScore, bestText =>
    if text = "" then pickBestAux rest bestScore bestText
    else if bestScore < candScore source text then pickBestAux rest (candScore source text) text
    else pickBestAux rest bestScore bestText

/-- `TranscriptionService._pick_best_transcript`. -/
def pickBestTranscript (candidates : List (String × String)) : String :=
  if candidates = [] then "" else pickBestAux candidates (-1) ""

/-- The `candidates` list built by `transcribe` (lines 39–58): the
prepared local-model text (skipped for video containers), the prepared
hosted-API text, and the prepared hint, each kept only when non-empty. -/
def transcribeCandidates (env : TranscribeEnv) (fileName : String)
    (hintCandidate : String) : List (String × String) :=
  (if lowerStr (if pySuffix fileName = "" then ".webm" else pySuffix fileName) ∉
        videoContainerExts ∧ env.whisperModelAvailable = true ∧
        prepareCandidate (some (transcribeWithFasterWhisper env)) ≠ "" then
    [("whisper", prepareCandidate (some (transcribeWithFasterWhisper env)))]
  else []) ++
  (if env.openaiConfigured = true ∧ prepareCandidate (some (transcribeWithOpenai env)) ≠ "" then
    [("openai", prepareCandidate (some (transcribeWithOpenai env)))]
  else []) ++
  (if hintCandidate ≠ "" then [("hint", hintCandidate)] else [])

/-- `TranscriptionService.transcribe` (lines 26–66), over the external
outcomes in `env`. -/
def transcribe (env : TranscribeEnv) (mediaNonEmpty : Bool) (fileName : String)
    (transcriptHint : Option String) : String :=
  if !mediaNonEmpty then prepareCandidate transcriptHint
  else if !env.tempWriteOk then
    if prepareCandidate transcriptHint ≠ "" then prepareCandidate transcriptHint else ""
  else
    if pickBestTranscript (transcribeCandidates env fileName (prepareCandidate transcriptHint)) ≠ "" then
      pickBestTranscript (transcribeCandidates env fileName (prepareCandidate transcriptHint))
    else if prepareCandidate transcriptHint ≠ "" then prepareCandidate transcriptHint
    else ""

/-- The candidates that survive a run of `transcribe`: on the success
path the built candidate list, otherwise just the cleaned hint. -/
def survivingCandidates (env : TranscribeEnv) (mediaNonEmpty : Bool) (fileName : String)
    (transcriptHint : Option String) : List (String × String) :=
  if mediaNonEmpty = true ∧ env.tempWriteOk = true then
    transcribeCandidates env fileName (prepareCandidate transcriptHint)
  else if prepareCandidate transcriptHint ≠ "" then
    [("hint", prepareCandidate transcriptHint)]
  else []

theorem neg_one_lt_candScore (src text : String) : (-1 : ℚ) < candScore src text := by
  unfold candScore
  have h0 : (0 : ℚ) ≤ (min (wordsOf text).length 60 : ℚ) / 600 := by positivity
  split_ifs <;> linarith

theorem pickBestAux_result (l : List (String × String)) :
    ∀ b t, pickBestAux l b t = t ∨
      ∃ src, (src, pickBestAux l b t) ∈ l ∧ pickBestAux l b t ≠ "" := by
  induction l with
  | nil =>
    intro b t
    exact Or.inl rfl
  | cons p rest ih =>
    intro b t
    obtain ⟨source, text⟩ := p
    have hstep : pickBestAux ((source, text) :: rest) b t =
        (if text = "" then pickBestAux rest b t
        else if b < candScore source text then pickBestAux rest (candScore source text) text
        else pickBestAux rest b t) := rfl
    rw [hstep]
    split_ifs with he hlt
    · rcases ih b t with h | ⟨src, hmem, hne⟩
      · exact Or.inl h
      · exact Or.inr ⟨src, List.mem_cons_of_mem _ hmem, hne⟩
    · rcases ih (candScore source text) text with h | ⟨src, hmem, hne⟩
      · refine Or.inr ⟨source, ?_, ?_⟩
        · rw [h]
          exact List.mem_cons_self _ _
        · rw [h]
          exact he
      · exact Or.inr ⟨src, List.mem_cons_of_mem _ hmem, hne⟩
    · rcases ih b t with h | ⟨src, hmem, hne⟩
      · exact Or.inl h
      · exact Or.inr ⟨src, List.mem_cons_of_mem _ hmem, hne⟩

theorem pickBest_singleton {s t : String} (h : t ≠ "") :
    pickBestTranscript [(s, t)] = t := by
  unfold pickBestTranscript
  rw [if_neg (by simp)]
  show (if t = "" then pickBestAux [] (-1) ""
    else if (-1 : ℚ) < candScore s t then pickBestAux [] (candScore s t) t
    else pickBestAux [] (-1) "") = t
  rw [if_neg h, if_pos (neg_one_lt_candScore s t)]
  rfl

/-- C8: `transcribe` is total over every combination of external-call
outcomes (each failure is caught), and it returns the best surviving
candidate, else the cleaned hint, else the empty string — and any
non-empty result is one of the surviving candidates. -/
theorem transcribe_never_raises (env : TranscribeEnv) (mne : Bool) (fileName : String)
    (hint : Option String) :
    (transcribe env mne fileName hint =
      if pickBestTranscript (survivingCandidates env mne fileName hint) ≠ "" then
        pickBestTranscript (survivingCandidates env mne fileName hint)
      else if prepareCandidate hint ≠ "" then prepareCandidate hint else "") ∧
    (transcribe env mne fileName hint ≠ "" →
      ∃ src, (src, transcribe env mne fileName hint) ∈
        survivingCandidates env mne fileName hint) := by
  cases mne with
  | false =>
    have htr : transcribe env false fileName hint = prepareCandidate hint := rfl
    have hsv : survivingCandidates env false fileName hint =
        (if prepareCandidate hint ≠ "" then [("hint", prepareCandidate hint)] else []) := by
      unfold survivingCandidates
      rw [if_neg (by simp)]
    rw [htr, hsv]
    by_cases hc : prepareCandidate hint = ""
    · rw [if_neg (by simp [hc, pickBestTranscript])]
      constructor
      · rw [hc]
        rfl
      · intro hne
        exact absurd hc hne
    · rw [if_pos hc]
      constructor
      · rw [pickBest_singleton hc, if_pos hc]
      · intro _
        exact ⟨"hint", List.mem_singleton.mpr rfl⟩
  | true =>
    cases htw : env.tempWriteOk with
    | false =>
      have htr : transcribe env true fileName hint =
          (if prepareCandidate hint ≠ "" then prepareCandidate hint else "") := by
        unfold transcribe
        rw [htw]
        rfl
      have hsv : survivingCandidates env true fileName hint =
          (if prepareCandidate hint ≠ "" then [("hint", prepareCandidate hint)] else []) := by
        unfold survivingCandidates
        rw [htw]
        rw [if_neg (by simp)]
      rw [htr, hsv]
      by_cases hc : prepareCandidate hint = ""
      · rw [if_neg (by simp [hc]), if_neg (by simp [hc, pickBestTranscript]), hc]
        constructor
        · rfl
        · intro hne
          exact absurd rfl hne
      · rw [if_pos hc, if_pos hc]
        constructor
        · rw [pickBest_singleton hc, if_pos hc]
        · intro _
          exact ⟨"hint", List.mem_singleton.mpr rfl⟩
    | true =>
      have htr : transcribe env true fileName hint =
          (if pickBestTranscript (transcribeCandidates env fileName (prepareCandidate hint)) ≠ ""
          then pickBestTranscript (transcribeCandidates env fileName (prepareCandidate hint))
          else if prepareCandidate hint ≠ "" then prepareCandidate hint else "") := by
        unfold transcribe
        rw [htw]
        rw [if_neg (by decide), if_neg (by decide)]
      have hsv : survivingCandidates env true fileName hint =
          transcribeCandidates env fileName (prepareCandidate hint) := by
        unfold survivingCandidates
        rw [htw]
        rw [if_pos (by decide)]
      rw [htr, hsv]
      refine ⟨rfl, ?_⟩
      intro hne
      by_cases hb : pickBestTranscript
          (transcribeCandidates env fileName (prepareCandidate hint)) = ""
      · rw [if_neg (by simp [hb])] at hne ⊢
        by_cases hh : prepareCandidate hint = ""
        · rw [if_neg (by simp [hh])] at hne
          exact absurd rfl hne
        · rw [if_pos hh] at hne ⊢
          refine ⟨"hint", ?_⟩
          unfold transcribeCandidates
          refine List.mem_append_right _ ?_
          rw [if_pos hh]
          exact List.mem_singleton.mpr rfl
      · rw [if_pos hb] at hne ⊢
        unfold pickBestTranscript at hb ⊢
        by_cases hcand : transcribeCandidates env fileName (prepareCandidate hint) = []
        · rw [if_pos hcand] at hb
          exact absurd rfl hb
        · rw [if_neg hcand] at hb ⊢
          rcases pickBestAux_result
              (transcribeCandidates env fileName (prepareCandidate hint)) (-1) "" with
            h | ⟨src, hmem, _⟩
          · exact absurd h hb
          · exact ⟨src, hmem⟩

/-- Witness for `transcribe_never_raises` with empty media and a hint:
the result is the cleaned hint and is among the surviving candidates. -/
theorem transcribe_never_raises_witness :
    transcribe ⟨false, none, false, none, false⟩ false "a.webm" (some "hello world") ≠ "" ∧
    ∃ src, (src, transcribe ⟨false, none, false, none, false⟩ false "a.webm" (some "hello world")) ∈
      survivingCandidates ⟨false, none, false, none, false⟩ false "a.webm" (some "hello world") :=
  ⟨by decide,
    (transcribe_never_raises ⟨false, none, false, none, false⟩ false "a.webm"
      (some "hello world")).2 (by decide)⟩

/-! ## LLMScoringService._sanitize (backend/app/services/llm_service.py)
and EvaluationService.evaluate_session
(backend/app/services/evaluation_service.py) -/

/-- The raw dict parsed from the LLM response, as consumed by
`LLMScoringService._sanitize`.  Numeric entries are `Option ℚ`: `none`
models a missing key, `None`, or a non-float-coercible value (exactly
the inputs on which the LLM service variant of `_to_score_10` returns
`None`). -/
structure LLMRaw where
  communication_score : Option ℚ
  content_score : Option ℚ
  relevance_score : Option ℚ
  confidence_score : Option ℚ
  final_score : Option ℚ
  feedback : Option String
  strengths : Option (String ⊕ List String)
  weaknesses : Option (String ⊕ List String)

/-- `LLMScoringService._to_score_10` (llm_service.py lines 137–147):
`None` on coercion failure, otherwise rescale values in [0, 1] by ×10
and clamp to [0, 10].  Unlike the scoring-service variant it has no
default: failure propagates as `none`. -/
def llmToScore10 (value : Option ℚ) : Option ℚ :=
  match value with
  | none => none
  | some numeric =>
      some (max 0 (min 10 (if 0 ≤ numeric ∧ numeric ≤ 1 then numeric * 10 else numeric)))

/-- `LLMScoringService._sanitize` (llm_service.py lines 95–135): `none`
when any of the four dimension scores fails coercion; otherwise a dict
that always carries a (rounded) non-null `final_score` — the
model-supplied value when coercible, else the 0.45/0.45/0.10 weighted
formula over the relevance-blended content.  (`_to_points` is the same
code as `ScoringService._to_points`, so `toPoints` is reused.) -/
def llmSanitize (data : LLMRaw) : Option LLMScores :=
  match llmToScore10 data.communication_score, llmToScore10 data.content_score,
      llmToScore10 data.relevance_score, llmToScore10 data.confidence_score with
  | some communication, some content, some relevance, some confidence =>
      some
        { communication_score := some (pyRound2 communication)
          content_score := some (pyRound2 content)
          relevance_score := some (pyRound2 relevance)
          confidence_score := some (pyRound2 confidence)
          final_score := some (some (pyRound2
            (match llmToScore10 data.final_score with
             | some f => f
             | none =>
                 communication * 0.45 + (content * 0.6 + relevance * 0.4) * 0.45 +
                   confidence * 0.10)))
          feedback := some
            (if pyStrip (data.feedback.getD "") = "" then
              "Give a clearer, more relevant answer with concrete examples and stronger structure."
            else pyStrip (data.feedback.getD ""))
          strengths := some (Sum.inr
            (toPoints data.strengths "Shows intent to answer the question."))
          weaknesses := some (Sum.inr
            (toPoints data.weaknesses
              "Needs clearer structure and stronger relevance to the asked topic.")) }
  | _, _, _, _ => none

/-- One `SessionQuestion` row as read by `evaluate_session`. -/
structure SessionQuestion where
  question_id : Nat
  question_text : String

/-- The per-question loop of `evaluate_session` (evaluation_service.py
lines 47–100): skip questions without a response; raise when the LLM
scorer yields nothing; otherwise accumulate the rounded
communication/content/confidence scores returned by `score_answer` and
count the evaluated question.  `hasR q` models membership of `q` in
`response_map`; `llm q` models the (sanitized) result of
`llm_service.evaluate` for that question's response. -/
def evalLoop (questions : List SessionQuestion) (hasR : Nat → Bool)
    (llm : Nat → Option LLMScores) : Except String (ℚ × ℚ × ℚ × Nat) :=
  match questions with
  | [] => Except.ok (0, 0, 0, 0)
  | q :: rest =>
    if hasR q.question_id then
      match llm q.question_id with
      | none =>
          Except.error
            ("OpenAI evaluation is required but unavailable. " ++
              "Set USE_OPENAI_EVAL=true and provide OPENAI_API_KEY in .env.")
      | some scores =>
          match evalLoop rest hasR llm with
          | Except.error e => Except.error e
          | Except.ok (cm, ct, cf, k) =>
              Except.ok ((scoreAnswerOk scores).communication_score + cm,
                (scoreAnswerOk scores).content_score + ct,
                (scoreAnswerOk scores).confidence_score + cf, k + 1)
    else evalLoop rest hasR llm

/-- The aggregation tail of `evaluate_session` (evaluation_service.py
lines 102–112): raise when no question was evaluated, else the rounded
weighted total divided by the evaluated count, classified. -/
def evaluateSessionCore (questions : List SessionQuestion) (hasR : Nat → Bool)
    (llm : Nat → Option LLMScores) : Except String (ℚ × String) :=
  match evalLoop questions hasR llm with
  | Except.error e => Except.error e
  | Except.ok (cm, ct, cf, k) =>
    if k = 0 then Except.error "No responses available for evaluation"
    else
      Except.ok (pyRound2 ((cm * 0.45 + ct * 0.45 + cf * 0.10) / (k : ℚ)),
        classifyScore (pyRound2 ((cm * 0.45 + ct * 0.45 + cf * 0.10) / (k : ℚ))))

/-- C7: for a session with exactly 2 questions, both answered, where the
raw LLM output is communication=8, content=7, relevance=7, confidence=6
with no model-supplied final score (so `_sanitize` fills
`final_score = 7.35` from the weighted formula), `evaluate_session`
returns the final session score 7.35 and the label "Good". -/
theorem evaluate_session_two_questions (q1 q2 : SessionQuestion) (hasR : Nat → Bool)
    (h1 : hasR q1.question_id = true) (h2 : hasR q2.question_id = true) :
    evaluateSessionCore [q1, q2] hasR
      (fun _ => llmSanitize ⟨some 8, some 7, some 7, some 6, none, none, none, none⟩) =
      Except.ok (7.35, "Good") := by
  have hs : llmSanitize ⟨some 8, some 7, some 7, some 6, none, none, none, none⟩ =
      some
        { communication_score := some 8
          content_score := some 7
          relevance_score := some 7
          confidence_score := some 6
          final_score := some (some 7.35)
          feedback := some
            "Give a clearer, more relevant answer with concrete examples and stronger structure."
          strengths := some (Sum.inr ["Shows intent to answer the question."])
          weaknesses := some (Sum.inr
            ["Needs clearer structure and stronger relevance to the asked topic."]) } := by
    norm_num [llmSanitize, llmToScore10, pyRound2, roundHalfEven, pyStrip, toPoints]
    decide
  have hscore : scoreAnswerOk
      { communication_score := some 8
        content_score := some 7
        relevance_score := some 7
        confidence_score := some 6
        final_score := some (some 7.35)
        feedback := some
          "Give a clearer, more relevant answer with concrete examples and stronger structure."
        strengths := some (Sum.inr ["Shows intent to answer the question."])
        weaknesses := some (Sum.inr
          ["Needs clearer structure and stronger relevance to the asked topic."]) } =
      { communication_score := 8
        content_score := 7
        confidence_score := 6
        final_score := 7.35
        feedback :=
          "Give a clearer, more relevant answer with concrete examples and stronger structure."
        strengths := ["Shows intent to answer the question."]
        weaknesses :=
          ["Needs clearer structure and stronger relevance to the asked topic."] } := by
    norm_num [scoreAnswerOk, communicationOf, contentRawOf, relevanceOf, confidenceOf,
      contentOf, finalOf, toScore10D, pyRound2, roundHalfEven, pyStrip, toPoints]
    decide
  have hloop : evalLoop [q1, q2] hasR
      (fun _ => llmSanitize ⟨some 8, some 7, some 7, some 6, none, none, none, none⟩) =
      Except.ok (16, 14, 12, 2) := by
    simp only [evalLoop, h1, h2, hs, hscore, if_true]
    norm_num
  unfold evaluateSessionCore
  rw [hloop]
  norm_num [classifyScore, pyRound2, roundHalfEven]

/-- Witness for `evaluate_session_two_questions` at two concrete
questions with every question answered. -/
theorem evaluate_session_two_questions_witness :
    (fun _ : Nat => true) 1 = true ∧ (fun _ : Nat => true) 2 = true ∧
    evaluateSessionCore [⟨1, "Tell me about yourself."⟩, ⟨2, "Describe a project."⟩]
      (fun _ => true)
      (fun _ => llmSanitize ⟨some 8, some 7, some 7, some 6, none, none, none, none⟩) =
      Except.ok (7.35, "Good") :=
  ⟨rfl, rfl,
    evaluate_session_two_questions ⟨1, "Tell me about yourself."⟩
      ⟨2, "Describe a project."⟩ (fun _ => true) rfl rfl⟩

/-! ## Response upload endpoint (backend/app/routers/interview.py) -/

/-- `str.upper()` on one character, for the ASCII and basic Cyrillic
ranges (the inverse of `pyLower`); identity elsewhere. -/
def pyUpper (c : Char) : Char :=
  if 97 ≤ c.toNat ∧ c.toNat ≤ 122 then Char.ofNat (c.toNat - 32)
  else if 0x430 ≤ c.toNat ∧ c.toNat ≤ 0x44F then Char.ofNat (c.toNat - 0x20)
  else if 0x450 ≤ c.toNat ∧ c.toNat ≤ 0x45F then Char.ofNat (c.toNat - 0x50)
  else c

/-- `str.title()` on a character list: the first character of every
alphabetic run is uppercased, the rest lowercased (cased characters
approximated by `pyIsAlpha`, as elsewhere in this development). -/
def pyTitleAux : List Char → Bool → List Char
  | [], _ => []
  | c :: rest, prevCased =>
    if pyIsAlpha c then
      (if prevCased then pyLower c else pyUpper c) :: pyTitleAux rest true
    else c :: pyTitleAux rest false

/-- `str.title()`. -/
def pyTitle (s : String) : String := ⟨pyTitleAux s.data false⟩

/-- The separator class of `_derive_name_from_email`'s
`re.split` pattern, dot underscore plus hyphen or whitespace. -/
def isNameSep (c : Char) : Bool :=
  c = '.' || c = '_' || c = '+' || c = '-' || pyIsSpace c

/-- `re.split` on runs of `isNameSep` with empty items dropped (the list
comprehension `[item for item in re.split(...) if item]`). -/
def splitSepAux : List Char → List Char → List String
  | [], acc => if acc.isEmpty then [] else [⟨acc.reverse⟩]
  | c :: rest, acc =>
    if isNameSep c then
      if acc.isEmpty then splitSepAux rest []
      else (⟨acc.reverse⟩ : String) :: splitSepAux rest []
    else splitSepAux rest (c :: acc)

/-- `local_part.split("@", 1)[0]`: the characters before the first `@`. -/
def beforeAt : List Char → List Char
  | [] => []
  | c :: rest => if c = '@' then [] else c :: beforeAt rest

/-- `_derive_name_from_email` (interview.py lines 113–118). -/
def deriveNameFromEmail (email : Option String) : String :=
  if splitSepAux (beforeAt (pyStripL (email.getD "").data)) [] = [] then "Candidate"
  else joinSp ((splitSepAux (beforeAt (pyStripL (email.getD "").data)) []).map pyTitle)

/-- `_resolve_candidate_name` (interview.py lines 121–125). -/
def resolveCandidateName (name email : Option String) : String :=
  if joinSp (wordsOf (name.getD "")) ≠ "" ∧
      '@' ∉ (joinSp (wordsOf (name.getD ""))).data then
    joinSp (wordsOf (name.getD ""))
  else deriveNameFromEmail email

/-- One row of the `users` table (the fields read by the upload path). -/
structure UserRow where
  candidate_id : Option String
  name : Option String
  email : String
deriving DecidableEq

/-- One row of the `candidate_sessions` table (the fields read or
written by the upload path). -/
structure SessionRow where
  id : String
  candidate_id : String
  candidate_name : Option String
  candidate_email : Option String
  status : String
deriving DecidableEq

/-- One row of the `session_questions` table (the key fields). -/
structure SessionQuestionRow where
  session_id : String
  question_id : String
deriving DecidableEq

/-- One row of the `candidate_responses` table. -/
structure ResponseRow where
  id : Nat
  session_id : String
  question_id : String
  candidate_name : Option String
  candidate_email : Option String
  media_filename : String
  media_mime : String
  media_path : String
  duration_seconds : Option ℚ
  transcript : Option String
deriving DecidableEq

/-- One row of the `scores` table (the field read by
`_schedule_session_evaluation_if_ready`). -/
structure ScoreRow where
  session_id : String
  ai_total_score : Option ℚ
deriving DecidableEq

/-- The database state seen by the upload endpoint.  `nextResponseId`
models the autoincrement counter of `candidate_responses.id`. -/
structure DB where
  users : List UserRow
  sessions : List SessionRow
  sessionQuestions : List SessionQuestionRow
  responses : List ResponseRow
  scores : List ScoreRow
  nextResponseId : Nat
deriving DecidableEq

/-- The `user` lookup of `_resolve_session_candidate_identity`
(interview.py lines 134–146): `None` when the lookup key is falsy, else
the first user whose `candidate_id` or `email` equals the key. -/
def userLookup (users : List UserRow) (key : String) : Option UserRow :=
  if key = "" then none
  else users.find? (fun u => u.candidate_id = some key || u.email = key)

/-- `_resolve_session_candidate_identity` (interview.py lines 128–152). -/
def resolveSessionCandidateIdentity (db : DB) (s : SessionRow) : String × String :=
  if joinSp (wordsOf (s.candidate_name.getD "")) ≠ "" ∧
      lowerStr (pyStrip (s.candidate_email.getD "")) ≠ "" then
    (joinSp (wordsOf (s.candidate_name.getD "")),
      lowerStr (pyStrip (s.candidate_email.getD "")))
  else
    (resolveCandidateName
      (if joinSp (wordsOf (s.candidate_name.getD "")) ≠ "" then
        some (joinSp (wordsOf (s.candidate_name.getD "")))
      else
        (userLookup db.users (lowerStr (pyStrip s.candidate_id))).bind (fun u => u.name))
      (some (lowerStr (pyStrip
        (if lowerStr (pyStrip (s.candidate_email.getD "")) ≠ "" then
          lowerStr (pyStrip (s.candidate_email.getD ""))
        else
          match userLookup db.users (lowerStr (pyStrip s.candidate_id)) with
          | some u => u.email
          | none => lowerStr (pyStrip s.candidate_id))))),
      lowerStr (pyStrip
        (if lowerStr (pyStrip (s.candidate_email.getD "")) ≠ "" then
          lowerStr (pyStrip (s.candidate_email.getD ""))
        else
          match userLookup db.users (lowerStr (pyStrip s.candidate_id)) with
          | some u => u.email
          | none => lowerStr (pyStrip s.candidate_id))))

/-- `session.status = "submitted"` written through the session object:
the stored row with the session's primary key is updated. -/
def markSubmitted (sid : String) (s : SessionRow) : SessionRow :=
  if s.id = sid then { s with status := "submitted" } else s

/-- `_schedule_session_evaluation_if_ready` (interview.py lines
181–195), returning the `auto_evaluated` flag and the updated state.
Only `session.status` is ever written; the background enqueue has no
database effect here. -/
def scheduleIfReady (db : DB) (session : SessionRow) : Bool × DB :=
  if (db.sessionQuestions.filter (fun q => q.session_id = session.id)).length = 0 ∨
      ((db.responses.filter (fun r => r.session_id = session.id)).map
          (fun r => r.question_id)).dedup.length <
        (db.sessionQuestions.filter (fun q => q.session_id = session.id)).length then
    (false, db)
  else if session.status = "completed" ∧
      (db.scores.find? (fun sc => sc.session_id = session.id)).elim false
        (fun sc => sc.ai_total_score.isSome) = true then
    (true, db)
  else
    (false, { db with sessions := db.sessions.map (markSubmitted session.id) })

/-- The in-place backfill of a stored response's candidate identity
(interview.py lines 295–299): the row object `existing` (identified by
its primary key) gets `candidate_name or candidate_name_resolved` and
likewise for the email; every other row is untouched. -/
def backfillRow (nm em : String) (rid : Nat) (r : ResponseRow) : ResponseRow :=
  if r.id = rid then
    { r with
      candidate_name := if r.candidate_name.getD "" = "" then some nm else r.candidate_name
      candidate_email := if r.candidate_email.getD "" = "" then some em else r.candidate_email }
  else r

/-- The form fields and externally produced values of one call to the
upload endpoint (`store_media`'s outputs are inputs here). -/
structure UploadArgs where
  session_id : String
  question_id : String
  duration_seconds : Option ℚ
  transcript_hint : Option String
  userEmail : String
  storedFileName : String
  storedMime : String
  storedPath : String
deriving DecidableEq

/-- The response body of the upload endpoint (timestamps omitted). -/
structure UploadOut where
  response_id : Nat
  question_id : String
  transcript : String
  auto_evaluated : Bool
deriving DecidableEq

/-- The backfill applied to every stored response row (only the row
with key `rid` actually changes). -/
def backfillAll (db : DB) (session : SessionRow) (rid : Nat) : List ResponseRow :=
  db.responses.map
    (backfillRow (resolveSessionCandidateIdentity db session).1
      (resolveSessionCandidateIdentity db session).2 rid)

/-- The state after the backfill commit. -/
def backfillDB (db : DB) (session : SessionRow) (existing : ResponseRow) : DB :=
  if existing.candidate_name.getD "" = "" ∨ existing.candidate_email.getD "" = "" then
    { db with responses := backfillAll db session existing.id }
  else db

/-- The fresh `CandidateResponse` row of the insert branch
(interview.py lines 321–334). -/
def newResponseRow (db : DB) (session : SessionRow) (a : UploadArgs) : ResponseRow :=
  { id := db.nextResponseId
    session_id := a.session_id
    question_id := a.question_id
    candidate_name := some (resolveSessionCandidateIdentity db session).1
    candidate_email := some (resolveSessionCandidateIdentity db session).2
    media_filename := a.storedFileName
    media_mime := a.storedMime
    media_path := a.storedPath
    duration_seconds := a.duration_seconds
    transcript := if cleanText a.transcript_hint = "" then none
      else some (cleanText a.transcript_hint) }

/-- The state after `db.add(response); db.commit()` of the insert
branch. -/
def insertDB (db : DB) (session : SessionRow) (a : UploadArgs) : DB :=
  { db with
    responses := db.responses ++ [newResponseRow db session a]
    nextResponseId := db.nextResponseId + 1 }

/-- `upload_candidate_response` (interview.py lines 264–350): 404 when
the session or the session question is missing, 403 when the session
belongs to another candidate; an existing response for the
(session, question) pair is returned as-is after an identity backfill;
otherwise a fresh row is inserted with the next id and the cleaned
transcript hint. -/
def uploadCandidateResponse (db : DB) (a : UploadArgs) :
    Except String (UploadOut × DB) :=
  match db.sessions.find? (fun s => s.id = a.session_id) with
  | none => Except.error "Session not found"
  | some session =>
    if session.candidate_id ≠ a.userEmail then
      Except.error "Not authorized to access this session."
    else
      match db.sessionQuestions.find?
          (fun q => q.session_id = a.session_id ∧ q.question_id = a.question_id) with
      | none => Except.error "Question not found for session"
      | some _ =>
        match db.responses.find?
            (fun r => r.session_id = a.session_id ∧ r.question_id = a.question_id) with
        | some existing =>
          Except.ok
            ({ response_id := existing.id
               question_id := existing.question_id
               transcript := existing.transcript.getD ""
               auto_evaluated := (scheduleIfReady (backfillDB db session existing) session).1 },
              (scheduleIfReady (backfillDB db session existing) session).2)
        | none =>
          Except.ok
            ({ response_id := db.nextResponseId
               question_id := a.question_id
               transcript := ((newResponseRow db session a).transcript).getD ""
               auto_evaluated := (scheduleIfReady (insertDB db session a) session).1 },
              (scheduleIfReady (insertDB db session a) session).2)

/-- The (id, session_id, question_id) key triples of the stored
responses, in order. -/
def respKeys (db : DB) : List (Nat × String × String) :=
  db.responses.map (fun r => (r.id, r.session_id, r.question_id))

/-- At most one response row per (session, question) pair. -/
def distinctRespKeys (db : DB) : Prop :=
  db.responses.Pairwise
    (fun r r' => ¬(r.session_id = r'.session_id ∧ r.question_id = r'.question_id))

/-- The state transition of one upload call: a failed call (an HTTP
error) leaves the database unchanged. -/
def applyUpload (db : DB) (a : UploadArgs) : DB :=
  match uploadCandidateResponse db a with
  | Except.ok (_, db2) => db2
  | Except.error _ => db

/-- A sequence of upload calls. -/
def seqUpload (db : DB) (l : List UploadArgs) : DB := l.foldl applyUpload db

theorem markSubmitted_fields (sid : String) (s : SessionRow) :
    (markSubmitted sid s).id = s.id ∧
    (markSubmitted sid s).candidate_id = s.candidate_id := by
  unfold markSubmitted
  split_ifs <;> exact ⟨rfl, rfl⟩

theorem backfillRow_keys (nm em : String) (rid : Nat) (r : ResponseRow) :
    (backfillRow nm em rid r).id = r.id ∧
    (backfillRow nm em rid r).session_id = r.session_id ∧
    (backfillRow nm em rid r).question_id = r.question_id := by
  unfold backfillRow
  split_ifs <;> exact ⟨rfl, rfl, rfl⟩

theorem scheduleIfReady_fixed (db : DB) (s : SessionRow) :
    ((scheduleIfReady db s).2).users = db.users ∧
    ((scheduleIfReady db s).2).sessionQuestions = db.sessionQuestions ∧
    ((scheduleIfReady db s).2).responses = db.responses ∧
    ((scheduleIfReady db s).2).scores = db.scores ∧
    ((scheduleIfReady db s).2).nextResponseId = db.nextResponseId := by
  unfold scheduleIfReady
  split_ifs <;> exact ⟨rfl, rfl, rfl, rfl, rfl⟩

theorem scheduleIfReady_sessions (db : DB) (s : SessionRow) :
    ((scheduleIfReady db s).2).sessions = db.sessions ∨
    ((scheduleIfReady db s).2).sessions = db.sessions.map (markSubmitted s.id) := by
  unfold scheduleIfReady
  split_ifs
  · exact Or.inl rfl
  · exact Or.inl rfl
  · exact Or.inr rfl

theorem find?_map_pred {α : Type} (l : List α) (f : α → α) (p : α → Bool)
    (hp : ∀ x, p (f x) = p x) :
    (l.map f).find? p = (l.find? p).map f := by
  have hpf : p ∘ f = p := funext hp
  rw [List.find?_map, hpf]

theorem respKeys_congr (db db' : DB) (f : ResponseRow → ResponseRow)
    (hf : ∀ r, (f r).id = r.id ∧ (f r).session_id = r.session_id ∧
      (f r).question_id = r.question_id)
    (h : db'.responses = db.responses.map f) : respKeys db' = respKeys db := by
  unfold respKeys
  rw [h, List.map_map]
  apply List.map_congr_left
  intro r _
  obtain ⟨h1, h2, h3⟩ := hf r
  simp [Function.comp, h1, h2, h3]

theorem backfillDB_shape (db : DB) (session : SessionRow) (existing : ResponseRow) :
    ∃ f : ResponseRow → ResponseRow,
      (∀ r, (f r).id = r.id ∧ (f r).session_id = r.session_id ∧
        (f r).question_id = r.question_id) ∧
      (backfillDB db session existing).responses = db.responses.map f ∧
      (backfillDB db session existing).users = db.users ∧
      (backfillDB db session existing).sessions = db.sessions ∧
      (backfillDB db session existing).sessionQuestions = db.sessionQuestions ∧
      (backfillDB db session existing).scores = db.scores ∧
      (backfillDB db session existing).nextResponseId = db.nextResponseId := by
  unfold backfillDB
  split_ifs
  · exact ⟨backfillRow (resolveSessionCandidateIdentity db session).1
        (resolveSessionCandidateIdentity db session).2 existing.id,
      backfillRow_keys _ _ _, rfl, rfl, rfl, rfl, rfl, rfl⟩
  · exact ⟨id, fun r => ⟨rfl, rfl, rfl⟩, (List.map_id _).symm, rfl, rfl, rfl, rfl, rfl⟩

theorem upload_ok_shape (db : DB) (a : UploadArgs) (out1 : UploadOut) (db1 : DB)
    (h1 : uploadCandidateResponse db a = Except.ok (out1, db1)) :
    ∃ session : SessionRow,
      db.sessions.find? (fun s => s.id = a.session_id) = some session ∧
      session.candidate_id = a.userEmail ∧
      (∃ qrow, db.sessionQuestions.find?
        (fun q => q.session_id = a.session_id ∧ q.question_id = a.question_id) = some qrow) ∧
      db1.sessionQuestions = db.sessionQuestions ∧
      (db1.sessions = db.sessions ∨
        db1.sessions = db.sessions.map (markSubmitted session.id)) ∧
      ((∃ existing f,
          db.responses.find? (fun r => r.session_id = a.session_id ∧
            r.question_id = a.question_id) = some existing ∧
          out1.response_id = existing.id ∧
          (∀ r, (f r).id = r.id ∧ (f r).session_id = r.session_id ∧
            (f r).question_id = r.question_id) ∧
          db1.responses = db.responses.map f) ∨
        (db.responses.find? (fun r => r.session_id = a.session_id ∧
            r.question_id = a.question_id) = none ∧
          out1.response_id = db.nextResponseId ∧
          db1.responses = db.responses ++ [newResponseRow db session a])) := by
  cases hfs : db.sessions.find? (fun s => s.id = a.session_id) with
  | none =>
    simp only [uploadCandidateResponse, hfs] at h1
    exact Except.noConfusion h1
  | some session =>
    simp only [uploadCandidateResponse, hfs] at h1
    by_cases hauth : session.candidate_id = a.userEmail
    case neg =>
      rw [if_pos hauth] at h1
      simp at h1
    case pos =>
      rw [if_neg (fun h => h hauth)] at h1
      cases hfq : db.sessionQuestions.find?
          (fun q => q.session_id = a.session_id ∧ q.question_id = a.question_id) with
      | none =>
        simp only [hfq] at h1
        exact Except.noConfusion h1
      | some qrow =>
        simp only [hfq] at h1
        cases hfr : db.responses.find?
            (fun r => r.session_id = a.session_id ∧ r.question_id = a.question_id) with
        | some existing =>
          simp only [hfr, Except.ok.injEq, Prod.mk.injEq] at h1
          obtain ⟨hout, hdb⟩ := h1
          obtain ⟨fB, hfB, hrespB, _, hsessB, hquesB, _, _⟩ :=
            backfillDB_shape db session existing
          have hfix := scheduleIfReady_fixed (backfillDB db session existing) session
          refine ⟨session, rfl, hauth, ⟨qrow, rfl⟩, ?_, ?_, ?_⟩
          · rw [← hdb, hfix.2.1, hquesB]
          · rcases scheduleIfReady_sessions (backfillDB db session existing) session with
              hs | hs
            · exact Or.inl (by rw [← hdb, hs, hsessB])
            · exact Or.inr (by rw [← hdb, hs, hsessB])
          · refine Or.inl ⟨existing, fB, rfl, ?_, hfB, ?_⟩
            · rw [← hout]
            · rw [← hdb, hfix.2.2.1, hrespB]
        | none =>
          simp only [hfr, Except.ok.injEq, Prod.mk.injEq] at h1
          obtain ⟨hout, hdb⟩ := h1
          have hfix := scheduleIfReady_fixed (insertDB db session a) session
          refine ⟨session, rfl, hauth, ⟨qrow, rfl⟩, ?_, ?_, ?_⟩
          · rw [← hdb, hfix.2.1]
            rfl
          · rcases scheduleIfReady_sessions (insertDB db session a) session with hs | hs
            · exact Or.inl (by rw [← hdb, hs]; rfl)
            · exact Or.inr (by rw [← hdb, hs]; rfl)
          · refine Or.inr ⟨rfl, ?_, ?_⟩
            · rw [← hout]
            · rw [← hdb, hfix.2.2.1]
              rfl

theorem upload_second (db : DB) (a : UploadArgs) (out1 : UploadOut) (db1 : DB)
    (h1 : uploadCandidateResponse db a = Except.ok (out1, db1)) :
    ∃ out2 db2, uploadCandidateResponse db1 a = Except.ok (out2, db2) ∧
      out2.response_id = out1.response_id ∧ respKeys db2 = respKeys db1 := by
  obtain ⟨session, hfs, hauth, ⟨qrow, hfq⟩, hq1, hsess1, hbranch⟩ :=
    upload_ok_shape db a out1 db1 h1
  have hfs1 : ∃ session2, db1.sessions.find? (fun s => s.id = a.session_id) = some session2 ∧
      session2.candidate_id = a.userEmail := by
    rcases hsess1 with hs | hs
    · exact ⟨session, by rw [hs, hfs], hauth⟩
    · refine ⟨markSubmitted session.id session, ?_, ?_⟩
      · rw [hs, find?_map_pred _ _ _ (fun x => by
          simp [(markSubmitted_fields session.id x).1]), hfs]
        rfl
      · rw [(markSubmitted_fields _ _).2]
        exact hauth
  have hfr1 : ∃ e2, db1.responses.find?
      (fun r => r.session_id = a.session_id ∧ r.question_id = a.question_id) = some e2 ∧
      e2.id = out1.response_id := by
    rcases hbranch with ⟨existing, f, hfr, hid, hf, hresp⟩ | ⟨hfr, hid, hresp⟩
    · refine ⟨f existing, ?_, ?_⟩
      · rw [hresp, find?_map_pred _ _ _ (fun x => by
          rw [decide_eq_decide]
          rw [(hf x).2.1, (hf x).2.2]), hfr]
        rfl
      · rw [(hf existing).1, hid]
    · refine ⟨newResponseRow db session a, ?_, ?_⟩
      · rw [hresp, List.find?_append, hfr]
        have hone : List.find? (fun r : ResponseRow =>
            decide (r.session_id = a.session_id ∧ r.question_id = a.question_id))
            [newResponseRow db session a] = some (newResponseRow db session a) := by
          simp [List.find?, newResponseRow]
        rw [hone]
        rfl
      · rw [hid]
        rfl
  obtain ⟨session2, hfs2, hauth2⟩ := hfs1
  obtain ⟨e2, hfr2, hid2⟩ := hfr1
  have hfq2 : db1.sessionQuestions.find?
      (fun q => q.session_id = a.session_id ∧ q.question_id = a.question_id) = some qrow := by
    rw [hq1]
    exact hfq
  refine ⟨{ response_id := e2.id
            question_id := e2.question_id
            transcript := e2.transcript.getD ""
            auto_evaluated := (scheduleIfReady (backfillDB db1 session2 e2) session2).1 },
    (scheduleIfReady (backfillDB db1 session2 e2) session2).2, ?_, hid2, ?_⟩
  · simp only [uploadCandidateResponse, hfs2]
    rw [if_neg (fun h => h hauth2)]
    simp only [hfq2, hfr2]
  · obtain ⟨f2, hf2, hresp2, _, _, _, _, _⟩ := backfillDB_shape db1 session2 e2
    have hfix2 := scheduleIfReady_fixed (backfillDB db1 session2 e2) session2
    apply respKeys_congr db1 _ f2 hf2
    rw [hfix2.2.2.1, hresp2]

theorem applyUpload_distinct (db : DB) (a : UploadArgs) (h : distinctRespKeys db) :
    distinctRespKeys (applyUpload db a) := by
  unfold applyUpload
  cases hu : uploadCandidateResponse db a with
  | error e => exact h
  | ok p =>
    obtain ⟨out1, db1⟩ := p
    obtain ⟨session, _, _, _, _, _, hbranch⟩ := upload_ok_shape db a out1 db1 hu
    unfold distinctRespKeys at h ⊢
    rcases hbranch with ⟨existing, f, hfr, hid, hf, hresp⟩ | ⟨hfr, hid, hresp⟩
    · rw [hresp, List.pairwise_map]
      refine h.imp ?_
      intro r r' hrr hc
      rw [(hf r).2.1, (hf r').2.1, (hf r).2.2, (hf r').2.2] at hc
      exact hrr hc
    · rw [hresp, List.pairwise_append]
      refine ⟨h, by simp, ?_⟩
      intro r hr b hb
      have hnone := List.find?_eq_none.mp hfr r hr
      rw [List.mem_singleton] at hb
      subst hb
      intro hc
      exact hnone (decide_eq_true ⟨hc.1, hc.2⟩)

theorem seqUpload_distinct (l : List UploadArgs) : ∀ db : DB, distinctRespKeys db →
    distinctRespKeys (seqUpload db l) := by
  induction l with
  | nil => exact fun db h => h
  | cons a rest ih => exact fun db h => ih (applyUpload db a) (applyUpload_distinct db a h)

/-- C9: the upload endpoint is idempotent per (session, question): after
a successful upload, a second call with the same form fields succeeds,
returns the same response id, and leaves the list of stored response
keys (id, session id, question id) unchanged — no second row is
created; and every sequence of upload calls preserves the invariant
that at most one response row exists per (session, question) pair. -/
theorem upload_idempotent_per_question (db : DB) (a : UploadArgs)
    (out1 : UploadOut) (db1 : DB)
    (h1 : uploadCandidateResponse db a = Except.ok (out1, db1)) :
    (∃ out2 db2, uploadCandidateResponse db1 a = Except.ok (out2, db2) ∧
      out2.response_id = out1.response_id ∧ respKeys db2 = respKeys db1) ∧
    ∀ l : List UploadArgs, distinctRespKeys db → distinctRespKeys (seqUpload db l) :=
  ⟨upload_second db a out1 db1 h1, fun l h => seqUpload_distinct l db h⟩

/-- Concrete upload call for the witness. -/
def uploadDemoArgs : UploadArgs :=
  { session_id := "s1"
    question_id := "q1"
    duration_seconds := none
    transcript_hint := none
    userEmail := "u@x.com"
    storedFileName := "r.webm"
    storedMime := "video/webm"
    storedPath := "p" }

/-- The witness's session row. -/
def uploadDemoSession : SessionRow :=
  { id := "s1", candidate_id := "u@x.com", candidate_name := none,
    candidate_email := none, status := "in_progress" }

/-- Concrete initial database for the witness: one session owned by
`u@x.com` with two questions and no responses. -/
def uploadDemoDB : DB :=
  { users := []
    sessions := [uploadDemoSession]
    sessionQuestions := [⟨"s1", "q1"⟩, ⟨"s1", "q2"⟩]
    responses := []
    scores := []
    nextResponseId := 0 }

/-- The response body of the witness's first upload. -/
def uploadDemoOut : UploadOut :=
  { response_id := 0, question_id := "q1", transcript := "", auto_evaluated := false }

/-- The response row stored by the witness's first upload. -/
def uploadDemoResp : ResponseRow :=
  { id := 0
    session_id := "s1"
    question_id := "q1"
    candidate_name := some "U"
    candidate_email := some "u@x.com"
    media_filename := "r.webm"
    media_mime := "video/webm"
    media_path := "p"
    duration_seconds := none
    transcript := none }

/-- The database after the witness's first upload. -/
def uploadDemoDB1 : DB :=
  { uploadDemoDB with
    responses := [uploadDemoResp]
    nextResponseId := 1 }

/-- Witness for `upload_idempotent_per_question` at the concrete first
upload above. -/
theorem upload_idempotent_per_question_witness :
    (∃ out2 db2, uploadCandidateResponse uploadDemoDB1 uploadDemoArgs =
        Except.ok (out2, db2) ∧
      out2.response_id = uploadDemoOut.response_id ∧
      respKeys db2 = respKeys uploadDemoDB1) ∧
    ∀ l : List UploadArgs, distinctRespKeys uploadDemoDB →
      distinctRespKeys (seqUpload uploadDemoDB l) :=
  upload_idempotent_per_question uploadDemoDB uploadDemoArgs uploadDemoOut uploadDemoDB1
    (by decide)
